import Mathlib

/-!
# fsv::filtered_string_view

A shallow embedding of `src/filtered_string_view.h` and `src/filtered_string_view.cpp`.

* Memory is a finite list of characters; an address is an index into it.  A `const char*`
  is `Option Nat` (`none` is `nullptr`).  Reading outside the memory, or through `nullptr`,
  is undefined behaviour and is reported as `Error.undefined`.
* A `filter` is `std::function<bool(const char&)>`.  Its argument is a reference, so the
  callee sees the address of the character as well as its value (the closure built by
  `substr` uses the address); a filter is therefore a function of both.
* Functions that can throw, or whose behaviour can be undefined, return `Except Error _`.
* A `char` is a character of Lean.  Equality of `char` is equality of characters; the order
  `<` of `char` is the order of the promoted values `char_value`, `char` being a signed
  8-bit type on the platform the code is built for.
* `std::size_t` values are natural numbers.  Loop counters are bounded by `length_` and never
  wrap; where the source adds or subtracts caller-supplied values the result is reduced
  modulo `2 ^ 64` explicitly.
-/

namespace fsv

/-- The memory: address `a` holds `m[a]`. -/
abbrev Mem := List Char

/-- The terminator of a C string. -/
def NUL : Char := Char.ofNat 0

/-- Ways in which a call can fail to return a value. -/
inductive Error where
  /-- Thrown `std::out_of_range` with its `what()` text. -/
  | out_of_range (what : String)
  /-- Thrown `std::domain_error` with its `what()` text. -/
  | domain_error (what : String)
  /-- Undefined behaviour: a read outside the memory or through `nullptr`, or an
  out-of-bounds `std::vector` subscript. -/
  | undefined
  /-- A loop of the model was cut off before its exit condition held. -/
  | fuel
  deriving DecidableEq, Repr

deriving instance DecidableEq for Except

/-- The type `fsv::filter`: a callable taking `const char&`, here the address and the value
of the referenced character. -/
abbrev filter := Nat → Char → Bool

/-- The static member `default_predicate`. -/
def default_predicate : filter := fun _ _ => true

/-- The private members of `filtered_string_view`. -/
structure filtered_string_view where
  pointer_ : Option Nat
  length_ : Nat
  predicate_ : filter

/-- The expression `p[i]` as a reference: the address and the character stored there. -/
def subscript_ptr (m : Mem) (p : Option Nat) (i : Nat) : Except Error (Nat × Char) :=
  match p with
  | none => .error .undefined
  | some a =>
    match m[a + i]? with
    | some c => .ok (a + i, c)
    | none => .error .undefined

/-- The function `std::strlen` on the characters from the pointer on: the number of characters
before the first `NUL`; running off the memory is undefined. -/
def strlen_from : List Char → Except Error Nat
  | [] => .error .undefined
  | c :: cs => if c = NUL then .ok 0 else do
    let n ← strlen_from cs
    pure (n + 1)

/-- The function `std::strlen`. -/
def strlen (m : Mem) (p : Option Nat) : Except Error Nat :=
  match p with
  | none => .error .undefined
  | some a => strlen_from (m.drop a)

/-! ## Constructors -/

/-- The default constructor. -/
def ctor_default : filtered_string_view :=
  { pointer_ := none, length_ := 0, predicate_ := default_predicate }

/-- The constructor from `const std::string&`: `data` is `str.data()` and `size` is
`str.size()`. -/
def ctor_string (data : Nat) (size : Nat) (pred : filter) : filtered_string_view :=
  { pointer_ := some data, length_ := size, predicate_ := pred }

/-- The constructor from `const char*`: the length is `std::strlen(str)`. -/
def ctor_cstr (m : Mem) (str : Option Nat) (pred : filter) :
    Except Error filtered_string_view := do
  let n ← strlen m str
  pure { pointer_ := str, length_ := n, predicate_ := pred }

/-! ## Member functions -/

/-- The loop of `operator[]` from raw position `i` on, over the remaining raw positions:
`some c` when the loop returns `c`, `none` when it runs to `length_`. -/
def subscript_loop (m : Mem) (v : filtered_string_view) (n : Nat) :
    List Nat → Nat → Except Error (Option Char)
  | [], _ => pure none
  | i :: is, count => do
    let r ← subscript_ptr m v.pointer_ i
    if v.predicate_ r.1 r.2 then
      if count = n then pure (some r.2)
      else subscript_loop m v n is (count + 1)
    else subscript_loop m v n is count

/-- The member `operator[]`: the value of the returned reference.  When the loop finds
nothing the source returns `pointer_[0]`. -/
def subscript (m : Mem) (v : filtered_string_view) (n : Nat) : Except Error Char := do
  match ← subscript_loop m v n (List.range v.length_) 0 with
  | some c => pure c
  | none =>
    let r ← subscript_ptr m v.pointer_ 0
    pure r.2

/-- The member `operator std::string()`. -/
def to_string (m : Mem) (v : filtered_string_view) : Except Error (List Char) :=
  (List.range v.length_).foldlM (fun result i => do
    let r ← subscript_ptr m v.pointer_ i
    pure (if v.predicate_ r.1 r.2 then result ++ [r.2] else result)) []

/-- The member `at`: the loop of `operator[]`, then a thrown `std::domain_error`. -/
def at_ (m : Mem) (v : filtered_string_view) (index : Nat) : Except Error Char := do
  match ← subscript_loop m v index (List.range v.length_) 0 with
  | some c => pure c
  | none =>
    throw (.domain_error ("filtered_string_view::at(" ++ toString index ++ "): invalid index"))

/-- The member `size`. -/
def size (m : Mem) (v : filtered_string_view) : Except Error Nat :=
  (List.range v.length_).foldlM (fun count i => do
    let r ← subscript_ptr m v.pointer_ i
    pure (if v.predicate_ r.1 r.2 then count + 1 else count)) 0

/-- The member `empty`. -/
def empty (m : Mem) (v : filtered_string_view) : Except Error Bool := do
  let n ← size m v
  pure (n == 0)

/-- The member `data`. -/
def data (v : filtered_string_view) : Option Nat := v.pointer_

/-- The member `predicate`. -/
def predicate (v : filtered_string_view) : filter := v.predicate_

/-! ## Assignment -/

/-- The copy assignment `self = other`, giving the new value of `self`; `aliased` says
whether `this == &other`. -/
def copy_assign (aliased : Bool) (self other : filtered_string_view) : filtered_string_view :=
  if !aliased then
    { pointer_ := other.pointer_, length_ := other.length_, predicate_ := other.predicate_ }
  else self

/-- The move assignment `self = std::move(other)`, giving the new values of `self` and of
`other`; `aliased` says whether `this == &other` (then both name one object).  The value
`filter{}` stored into the source has no target to call; it is the parameter
`empty_function`. -/
def move_assign (empty_function : filter) (aliased : Bool)
    (self other : filtered_string_view) : filtered_string_view × filtered_string_view :=
  if !aliased then
    ({ pointer_ := other.pointer_, length_ := other.length_, predicate_ := other.predicate_ },
     { pointer_ := none, length_ := 0, predicate_ := empty_function })
  else (self, other)

/-! ## Iterator -/

/-- The private members of `iter`.  The member `view_` points to the view the iterator was
made from; the functions below take that view as an argument, and two iterators into one
view are equal when their `pos_` are equal. -/
structure iter where
  pos_ : Nat
  deriving DecidableEq, Repr

/-- The loop `while (start < length_ && !predicate_(pointer_[start])) ++start`; the first
argument bounds the iterations left, `length_ - start`. -/
def first_valid_loop (m : Mem) (v : filtered_string_view) : Nat → Nat → Except Error Nat
  | 0, start => pure start
  | n + 1, start =>
    if start < v.length_ then do
      let r ← subscript_ptr m v.pointer_ start
      if !v.predicate_ r.1 r.2 then first_valid_loop m v n (start + 1) else pure start
    else pure start

/-- The private member `first_valid`. -/
def first_valid (m : Mem) (v : filtered_string_view) (start : Nat) : Except Error Nat :=
  first_valid_loop m v (v.length_ - start) start

/-- The member `begin` (and `cbegin`). -/
def begin (m : Mem) (v : filtered_string_view) : Except Error iter := do
  let p ← first_valid m v 0
  pure ⟨p⟩

/-- The member `end` (and `cend`). -/
def end_ (v : filtered_string_view) : iter := ⟨v.length_⟩

/-- The member `iter::operator*`: the value of the returned reference. -/
def deref (m : Mem) (v : filtered_string_view) (it : iter) : Except Error Char := do
  let r ← subscript_ptr m v.pointer_ it.pos_
  pure r.2

/-- The member `iter::operator++`: `do ++pos_ while (pos_ < length_ && !predicate_(...))`,
that is one `++pos_` followed by the loop of `first_valid`. -/
def increment (m : Mem) (v : filtered_string_view) (it : iter) : Except Error iter := do
  let p ← first_valid m v (it.pos_ + 1)
  pure ⟨p⟩

/-- The loop `while (pos_ > 0 && !predicate_(pointer_[pos_])) --pos_`; the first argument
bounds the iterations left, `pos_`. -/
def decrement_loop (m : Mem) (v : filtered_string_view) : Nat → Nat → Except Error Nat
  | 0, pos => pure pos
  | n + 1, pos =>
    if pos > 0 then do
      let r ← subscript_ptr m v.pointer_ pos
      if !v.predicate_ r.1 r.2 then decrement_loop m v n (pos - 1) else pure pos
    else pure pos

/-- The member `iter::operator--`: `do --pos_ while (pos_ > 0 && !predicate_(...))`, that is
one `--pos_` (which wraps around at zero) followed by the loop. -/
def decrement (m : Mem) (v : filtered_string_view) (it : iter) : Except Error iter := do
  let p := (it.pos_ + 2 ^ 64 - 1) % 2 ^ 64
  let q ← decrement_loop m v p p
  pure ⟨q⟩

/-- The loop `for (it = first; it != fsv.end(); ++it) os << *it`, also the range-based
`for (auto c : fsv) s.push_back(c)`. -/
def stream_loop (m : Mem) (v : filtered_string_view) :
    Nat → iter → List Char → Except Error (List Char)
  | 0, _, _ => throw .fuel
  | fuel + 1, it, os =>
    if it ≠ end_ v then do
      let c ← deref m v it
      let it ← increment m v it
      stream_loop m v fuel it (os ++ [c])
    else pure os

/-- The non-member `operator<<`, the stream being the list of characters written so far. -/
def operator_shl (m : Mem) (os : List Char) (v : filtered_string_view) :
    Except Error (List Char) := do
  let it ← begin m v
  stream_loop m v (v.length_ + 1) it os

/-- The range-based loop `for (auto c : fsv) s.push_back(c)` on an empty string `s`. -/
def range_for (m : Mem) (v : filtered_string_view) : Except Error (List Char) := do
  let it ← begin m v
  stream_loop m v (v.length_ + 1) it []

/-- The range constructor `std::vector<char>(rbegin(), rend())` over
`std::reverse_iterator<iter>`: the reverse iterator holds `current`, reads `*--tmp` of a
copy, and advances by `--current`; the loop ends when `current` equals that of `rend()`,
which is `begin()`. -/
def reverse_loop (m : Mem) (v : filtered_string_view) (last : iter) :
    Nat → iter → List Char → Except Error (List Char)
  | 0, _, _ => throw .fuel
  | fuel + 1, current, out =>
    if current ≠ last then do
      let tmp ← decrement m v current
      let c ← deref m v tmp
      let current ← decrement m v current
      reverse_loop m v last fuel current (out ++ [c])
    else pure out

/-- The traversal from `rbegin()` to `rend()`. -/
def reverse_traversal (m : Mem) (v : filtered_string_view) : Except Error (List Char) := do
  let last ← begin m v
  reverse_loop m v last (v.length_ + 1) (end_ v) []

/-! ## Non-member operators -/

/-- The loop of `operator==` over the logical positions. -/
def eq_loop (m : Mem) (lhs rhs : filtered_string_view) : List Nat → Except Error Bool
  | [] => pure true
  | i :: is => do
    let x ← subscript m lhs i
    let y ← subscript m rhs i
    if x ≠ y then pure false else eq_loop m lhs rhs is

/-- The non-member `operator==`. -/
def operator_eq (m : Mem) (lhs rhs : filtered_string_view) : Except Error Bool := do
  let n ← size m lhs
  let k ← size m rhs
  if n ≠ k then pure false else eq_loop m lhs rhs (List.range n)

/-- The value of a `char` after integral promotion, as the comparison `*first1 < *first2`
sees it.  The type `char` is signed and 8 bits wide on the platform: the bytes 0 to 127 are
the values 0 to 127 and the bytes 128 to 255 are the values -128 to -1.  A character of the
model above 255 is no byte of a buffer; it keeps its code point, so that distinct characters
have distinct values. -/
def char_value (c : Char) : Int :=
  if c.toNat < 128 then (c.toNat : Int)
  else if c.toNat < 256 then (c.toNat : Int) - 256
  else (c.toNat : Int)

/-- The comparison `x < y` of two `char`. -/
def char_lt (x y : Char) : Prop := char_value x < char_value y

instance (x y : Char) : Decidable (char_lt x y) :=
  inferInstanceAs (Decidable (char_value x < char_value y))

/-- The algorithm `std::lexicographical_compare(first1, lhs.end(), first2, rhs.end())`, with
the default comparison `<` of the dereferenced `char`. -/
def lexicographical_compare (m : Mem) (lhs rhs : filtered_string_view) :
    Nat → iter → iter → Except Error Bool
  | 0, _, _ => throw .fuel
  | fuel + 1, first1, first2 =>
    if first1 ≠ end_ lhs ∧ first2 ≠ end_ rhs then do
      let x ← deref m lhs first1
      let y ← deref m rhs first2
      if char_lt x y then pure true
      else if char_lt y x then pure false
      else do
        let first1 ← increment m lhs first1
        let first2 ← increment m rhs first2
        lexicographical_compare m lhs rhs fuel first1 first2
    else pure (decide (first1 = end_ lhs) && decide (first2 ≠ end_ rhs))

/-- The non-member `operator<`. -/
def operator_lt (m : Mem) (lhs rhs : filtered_string_view) : Except Error Bool := do
  let first1 ← begin m lhs
  let first2 ← begin m rhs
  lexicographical_compare m lhs rhs (lhs.length_ + 1) first1 first2

/-- The non-member `operator>`. -/
def operator_gt (m : Mem) (lhs rhs : filtered_string_view) : Except Error Bool :=
  operator_lt m rhs lhs

/-- The non-member `operator<=`. -/
def operator_le (m : Mem) (lhs rhs : filtered_string_view) : Except Error Bool := do
  let r ← operator_lt m rhs lhs
  pure (!r)

/-- The non-member `operator>=`. -/
def operator_ge (m : Mem) (lhs rhs : filtered_string_view) : Except Error Bool := do
  let r ← operator_lt m lhs rhs
  pure (!r)

/-! ## Non-member utility functions -/

/-- The closure `compose` builds: the filters in list order, stopping at the first that
rejects. -/
def compose_predicate (filts : List filter) : filter :=
  fun a c => filts.all (fun filt => filt a c)

/-- The non-member `compose`; the returned view is built by the `const char*` constructor. -/
def compose (m : Mem) (fsv : filtered_string_view) (filts : List filter) :
    Except Error filtered_string_view :=
  ctor_cstr m (data fsv) (compose_predicate filts)

/-- The pointer difference `&c - data` for a character at address `a`; `nullptr` counts as
address zero. -/
def ptr_diff (a : Nat) (data : Option Nat) : Int := (a : Int) - ((data.getD 0 : Nat) : Int)

/-- The text of the exception `substr` throws. -/
def substr_what (pos filtered_size : Nat) : String :=
  "filtered_string_view::substr(" ++ toString pos
    ++ "): position out of range for filtered string of size " ++ toString filtered_size

/-- The first loop of `substr`: `for (i = 0; i < fsv.size(); ++i)`, pushing each `i` whose
character the predicate accepts. -/
def substr_indices (m : Mem) (fsv : filtered_string_view) : Except Error (List Nat) := do
  let n ← size m fsv
  (List.range n).foldlM (fun (indices : List Nat) i => do
    let r ← subscript_ptr m (data fsv) i
    pure (if predicate fsv r.1 r.2 then indices ++ [i] else indices)) []

/-- The closure `new_pred` of `substr`. -/
def substr_predicate (data : Option Nat) (i_start i_end : Nat) (pred : filter) : filter :=
  fun a c =>
    decide (ptr_diff a data ≥ (i_start : Int)) && decide (ptr_diff a data < (i_end : Int))
      && pred a c

/-- The non-member `substr`.  The sum `pos + count.value()` and the difference `end - 1` are
`std::size_t` arithmetic; a `std::vector` subscript outside the vector is undefined. -/
def substr (m : Mem) (fsv : filtered_string_view) (pos : Nat) (count : Option Nat) :
    Except Error filtered_string_view := do
  let indices ← substr_indices m fsv
  let filtered_size := indices.length
  if pos > filtered_size then
    throw (.out_of_range (substr_what pos filtered_size))
  let end_ := match count with
    | some c => min ((pos + c) % 2 ^ 64) filtered_size
    | none => filtered_size
  if pos = end_ then
    ctor_cstr m (data fsv) (fun _ _ => false)
  else
    match indices[pos]?, indices[(end_ + 2 ^ 64 - 1) % 2 ^ 64]? with
    | some i_start, some last =>
      ctor_cstr m (data fsv) (substr_predicate (data fsv) i_start (last + 1) (predicate fsv))
    | _, _ => throw .undefined

/-- The search of `std::string::find` from the characters at `pos` on: `none` is `npos`. -/
def find_loop (str : List Char) : List Char → Nat → Option Nat
  | [], pos => if str.isEmpty then some pos else none
  | c :: cs, pos => if str.isPrefixOf (c :: cs) then some pos else find_loop str cs (pos + 1)

/-- The member `std::string::find(str, pos)` of the string `s`: the first position at or
after `pos` where `str` occurs, `none` for `npos`. -/
def find (s str : List Char) (pos : Nat) : Option Nat :=
  if pos > s.length then none else find_loop str (s.drop pos) pos

/-- The loop `while (start <= fsv_filtered.size())` of `split`. -/
def split_loop (m : Mem) (fsv : filtered_string_view) (fsv_filtered tok_filtered : List Char) :
    Nat → Nat → List filtered_string_view → Except Error (List filtered_string_view)
  | 0, _, _ => throw .fuel
  | fuel + 1, start, result =>
    if start ≤ fsv_filtered.length then
      match find fsv_filtered tok_filtered start with
      | none => do
        let part ← substr m fsv start none
        pure (result ++ [part])
      | some pos => do
        let part ← substr m fsv start (some (pos - start))
        split_loop m fsv fsv_filtered tok_filtered fuel (pos + tok_filtered.length)
          (result ++ [part])
    else pure result

/-- The non-member `split`. -/
def split (m : Mem) (fsv tok : filtered_string_view) :
    Except Error (List filtered_string_view) := do
  let fsv_filtered ← range_for m fsv
  let tok_filtered ← range_for m tok
  if tok_filtered.isEmpty || fsv_filtered.isEmpty then
    pure [fsv]
  else
    split_loop m fsv fsv_filtered tok_filtered (fsv_filtered.length + 2) 0 []

/-! ## The filtered sequence of a view

The definitions of this section follow the specification: the logical sequence of a view is
the subsequence of the raw characters at offsets `[0, length_)` that the predicate accepts,
in raw order. -/

/-- The buffer of the view lies inside the memory; a null pointer goes with length zero. -/
def readable (m : Mem) (v : filtered_string_view) : Prop :=
  match v.pointer_ with
  | none => v.length_ = 0
  | some a => a + v.length_ ≤ m.length

instance (m : Mem) (v : filtered_string_view) : Decidable (readable m v) := by
  unfold readable
  cases v.pointer_ <;> infer_instance

/-- The address of raw offset `i` of the view. -/
def raw_address (v : filtered_string_view) (i : Nat) : Nat := v.pointer_.getD 0 + i

/-- The character at raw offset `i` of the view. -/
def raw_char (m : Mem) (v : filtered_string_view) (i : Nat) : Char :=
  m.getD (raw_address v i) NUL

/-- Whether the predicate of the view holds of the character at raw offset `i`. -/
def accepted (m : Mem) (v : filtered_string_view) (i : Nat) : Bool :=
  v.predicate_ (raw_address v i) (raw_char m v i)

/-- The raw offsets in `[0, length_)` whose character satisfies the predicate, ascending. -/
def filtered_positions (m : Mem) (v : filtered_string_view) : List Nat :=
  (List.range v.length_).filter (accepted m v)

/-- The filtered (logical) sequence of the view. -/
def filtered_sequence (m : Mem) (v : filtered_string_view) : List Char :=
  (filtered_positions m v).map (raw_char m v)

/-- The accepted raw offsets in `[s, length_)`, ascending: what an iterator at or after raw
offset `s` has still to visit. -/
def positions_from (m : Mem) (v : filtered_string_view) (s : Nat) : List Nat :=
  (List.range' s (v.length_ - s)).filter (accepted m v)

/-- The characters of the backing buffer of the view, raw offsets `[0, length_)`. -/
def raw_buffer (m : Mem) (v : filtered_string_view) : List Char :=
  (List.range v.length_).map (raw_char m v)

/-- The view over the same buffer (pointer and raw length) with another predicate. -/
def with_predicate (v : filtered_string_view) (pred : filter) : filtered_string_view :=
  { pointer_ := v.pointer_, length_ := v.length_, predicate_ := pred }

/-- The effective end of `substr` as the specification gives it: `min(pos + count, N)` when
`count` is set, else `N`. -/
def effective_end (N pos : Nat) (count : Option Nat) : Nat :=
  match count with
  | some c => min (pos + c) N
  | none => N

/-- The gaps left by the left-to-right, non-overlapping occurrences of `t` in a text, read
from the characters still ahead: `skip` counts the characters of the current occurrence
still to pass, `gap` is the gap collected so far.  An occurrence closes the gap, so an
occurrence at the start, at the end or right after another one closes an empty gap. -/
def gaps_aux (t : List Char) : List Char → Nat → List Char → List (List Char)
  | [], _, gap => [gap]
  | _ :: cs, skip + 1, gap => gaps_aux t cs skip gap
  | c :: cs, 0, gap =>
    if t.isPrefixOf (c :: cs) then gap :: gaps_aux t cs (t.length - 1) []
    else gaps_aux t cs 0 (gap ++ [c])

/-- The gaps before, between and after the left-to-right, non-overlapping occurrences of `t`
in `s`. -/
def gaps (t s : List Char) : List (List Char) := gaps_aux t s 0 []

/-- The number of left-to-right, non-overlapping occurrences of `t` in a text, read from the
characters still ahead; `skip` as in `gaps_aux`. -/
def occurrences_aux (t : List Char) : List Char → Nat → Nat
  | [], _ => 0
  | _ :: cs, skip + 1 => occurrences_aux t cs skip
  | c :: cs, 0 =>
    if t.isPrefixOf (c :: cs) then occurrences_aux t cs (t.length - 1) + 1
    else occurrences_aux t cs 0

/-- The number of left-to-right, non-overlapping occurrences of `t` in `s`. -/
def occurrences (t s : List Char) : Nat := occurrences_aux t s 0

/-- The memory holding the given strings one after the other, each followed by `NUL`. -/
def memory_of (strs : List String) : Mem :=
  strs.flatMap (fun s => s.toList ++ [NUL])

/-! ## Concrete views -/

/-- The memory of the test `std::string constructor with predicate`. -/
def cat_memory : Mem := memory_of ["cat"]

/-- The view of the test `std::string constructor with predicate`: `"cat"` filtered to the
letter `a`. -/
def cat_view : filtered_string_view := ctor_string 0 3 (fun _ c => c == 'a')

/-- The memory of the tests of the comparison operators. -/
def bananas_memory : Mem := memory_of ["bananas", "bnns", "apples"]

/-- The view `fban` of the tests: `"bananas"` without the letter `a` and without blanks. -/
def fban : filtered_string_view := ctor_string 0 7 (fun _ c => c != 'a' && c != ' ')

/-- The view `bnns` of the tests. -/
def bnns : filtered_string_view := ctor_string 8 4 default_predicate

/-- The view `apples` of the tests. -/
def apples : filtered_string_view := ctor_string 13 6 default_predicate

/-- The memory holding the string `"a?b?c"`. -/
def marks_memory : Mem := memory_of ["a?b?c"]

/-- The view over `"a?b?c"` whose predicate rejects the question mark; its filtered sequence
is `"abc"`. -/
def marks_view : filtered_string_view := ctor_string 0 5 (fun _ c => c != '?')

/-- The memory of the test `split - basic working test`: the two string literals. -/
def wentworth_memory : Mem := memory_of ["Malcom? Bligh? Turnbull", " 2015"]

/-- The view `wentworth` of the test `split - basic working test`, as the `const char*`
constructor builds it. -/
def wentworth : filtered_string_view :=
  { pointer_ := some 0, length_ := 23, predicate_ := fun _ c => c != '?' }

/-- The view `token` of the test `split - basic working test`: `" 2015"` filtered to its
blank. -/
def token : filtered_string_view :=
  { pointer_ := some 24, length_ := 5, predicate_ := fun _ c => c == ' ' }

/-- The explicit string conversion of a returned view. -/
def rendered (m : Mem) (r : Except Error filtered_string_view) : Except Error (List Char) :=
  r >>= to_string m

/-- The explicit string conversions of the views of a returned sequence. -/
def rendered_list (m : Mem) (r : Except Error (List filtered_string_view)) :
    Except Error (List (List Char)) :=
  r >>= fun parts => parts.mapM (to_string m)

/-- The memory holding the strings `"??a,b"` and `","`. -/
def lead_memory : Mem := memory_of ["??a,b", ","]

/-- The view over `"??a,b"` whose predicate rejects the question mark: its first two raw
characters are rejected and its filtered sequence is `"a,b"`. -/
def lead_view : filtered_string_view := ctor_string 0 5 (fun _ c => c != '?')

/-- The view over `","`. -/
def comma_view : filtered_string_view := ctor_string 6 1 default_predicate

/-- The memory of the test `split - tok at edges`. -/
def xax_memory : Mem := memory_of ["xax", "x"]

/-- The view `s` of the test `split - tok at edges`. -/
def xax_view : filtered_string_view := ctor_string 0 3 default_predicate

/-- The view `tok` of the test `split - tok at edges`. -/
def x_view : filtered_string_view := ctor_string 4 1 default_predicate

/-- The memory of the test `substr - basic`. -/
def york_memory : Mem := memory_of ["new york city"]

/-- The view of the test `substr - basic`. -/
def york_view : filtered_string_view := ctor_string 0 13 default_predicate

/-- The memory of the test `split - no tok (empty)`. -/
def fishing_memory : Mem := memory_of ["fishing", ""]

/-- The view `fsv` of the test `split - no tok (empty)`. -/
def fishing_view : filtered_string_view := ctor_string 0 7 default_predicate

/-- The view `empty_tok` of the test `split - no tok (empty)`. -/
def empty_tok : filtered_string_view := ctor_string 8 0 default_predicate

/-- The memory of the test `compose`. -/
def compose_memory : Mem := memory_of ["c / c++"]

/-- The view `base` of the test `compose`. -/
def compose_base : filtered_string_view := ctor_string 0 7 default_predicate

/-- The filters `vf` of the test `compose`. -/
def compose_filters : List filter :=
  [fun _ c => c == 'c' || c == '+' || c == '/', fun _ c => decide (char_lt ' ' c),
    fun _ _ => true]

/-- The view `substr` builds for the raw window `[s, e)`: the pointer of `v`, a raw length
`n` and the closure `new_pred` over the predicate of `v`. -/
def window_view (v : filtered_string_view) (n s e : Nat) : filtered_string_view :=
  { pointer_ := v.pointer_, length_ := n,
    predicate_ := substr_predicate v.pointer_ s e v.predicate_ }

/-- The memory holding the five characters `a`, `b`, `NUL`, `c`, `d` of a `std::string` of
size 5 with an embedded `NUL`, and the terminator after them. -/
def nul_memory : Mem := memory_of ["ab", "cd"]

/-- The view the `std::string` constructor builds over that string. -/
def nul_view : filtered_string_view := ctor_string 0 5 default_predicate

/-- The memory holding the one-character strings of the byte 233 (`0xE9`) and of `a`. -/
def high_memory : Mem := [Char.ofNat 233, NUL, 'a', NUL]

/-- The view over the string of the byte 233. -/
def high_view : filtered_string_view := ctor_string 0 1 default_predicate

/-- The view over the string `"a"`. -/
def a_view : filtered_string_view := ctor_string 2 1 default_predicate

/-! ## Lemmas on the loops -/

theorem foldlM_ok {α β : Type} (f : β → α → Except Error β) (g : β → α → β) :
    ∀ (l : List α) (init : β), (∀ b, ∀ a ∈ l, f b a = .ok (g b a)) →
      l.foldlM f init = .ok (l.foldl g init) := by
  intro l
  induction l with
  | nil => intro init _; rfl
  | cons a l ih =>
    intro init h
    rw [List.foldlM_cons, h init a (List.mem_cons_self a l)]
    exact ih (g init a) (fun b x hx => h b x (List.mem_cons_of_mem a hx))

theorem subscript_ptr_ok {m : Mem} {v : filtered_string_view} (hr : readable m v) {i : Nat}
    (hi : i < v.length_) :
    subscript_ptr m v.pointer_ i = .ok (raw_address v i, raw_char m v i) := by
  unfold readable at hr
  unfold subscript_ptr raw_char raw_address
  cases hp : v.pointer_ with
  | none => rw [hp] at hr; omega
  | some a =>
    rw [hp] at hr
    have hlt : a + i < m.length := by omega
    simp [List.getElem?_eq_getElem hlt, List.getD_eq_getElem _ _ hlt]

theorem foldl_count (p : Nat → Bool) : ∀ (l : List Nat) (init : Nat),
    l.foldl (fun count i => if p i then count + 1 else count) init = init + l.countP p := by
  intro l
  induction l with
  | nil => intro init; simp
  | cons a l ih =>
    intro init
    rw [List.foldl_cons, ih]
    by_cases h : p a
    · simp [h]; omega
    · simp [h]

theorem foldl_push (p : Nat → Bool) (f : Nat → Char) : ∀ (l : List Nat) (init : List Char),
    l.foldl (fun result i => if p i then result ++ [f i] else result) init
      = init ++ (l.filter p).map f := by
  intro l
  induction l with
  | nil => intro init; simp
  | cons a l ih =>
    intro init
    rw [List.foldl_cons, ih]
    by_cases h : p a <;> simp [h]

theorem size_ok {m : Mem} {v : filtered_string_view} (hr : readable m v) :
    size m v = .ok ((List.range v.length_).countP (accepted m v)) := by
  unfold size
  rw [foldlM_ok _ (fun count i => if accepted m v i then count + 1 else count)]
  · rw [foldl_count]; simp
  · intro b a ha
    rw [subscript_ptr_ok hr (List.mem_range.mp ha)]
    rfl

theorem length_filtered_sequence (m : Mem) (v : filtered_string_view) :
    (filtered_sequence m v).length = (List.range v.length_).countP (accepted m v) := by
  simp [filtered_sequence, filtered_positions, List.countP_eq_length_filter]

theorem size_eq_length {m : Mem} {v : filtered_string_view} (hr : readable m v) :
    size m v = .ok (filtered_sequence m v).length := by
  rw [size_ok hr, length_filtered_sequence]

theorem to_string_ok {m : Mem} {v : filtered_string_view} (hr : readable m v) :
    to_string m v = .ok (filtered_sequence m v) := by
  unfold to_string
  rw [foldlM_ok _ (fun result i => if accepted m v i then result ++ [raw_char m v i] else result)]
  · rw [foldl_push]; simp [filtered_sequence, filtered_positions]
  · intro b a ha
    rw [subscript_ptr_ok hr (List.mem_range.mp ha)]
    rfl

theorem subscript_loop_ok {m : Mem} {v : filtered_string_view} (hr : readable m v) (n : Nat) :
    ∀ (l : List Nat) (count : Nat), (∀ i ∈ l, i < v.length_) → count ≤ n →
      subscript_loop m v n l count
        = .ok (((l.filter (accepted m v)).map (raw_char m v))[n - count]?) := by
  intro l
  induction l with
  | nil => intro count _ _; simp [subscript_loop]; rfl
  | cons i l ih =>
    intro count hl hc
    have hi : i < v.length_ := hl i (List.mem_cons_self i l)
    have hl2 : ∀ j ∈ l, j < v.length_ := fun j hj => hl j (List.mem_cons_of_mem i hj)
    unfold subscript_loop
    rw [subscript_ptr_ok hr hi]
    by_cases hacc : accepted m v i
    · have hacc2 : v.predicate_ (raw_address v i) (raw_char m v i) = true := hacc
      by_cases hcn : count = n
      · subst hcn
        simp [hacc, hacc2, bind, Except.bind, pure, Except.pure]
      · have hlt : count + 1 ≤ n := by omega
        have hsub : n - count = (n - (count + 1)) + 1 := by omega
        simp only [bind, Except.bind, hacc2, if_true, hcn, if_false]
        rw [ih (count + 1) hl2 hlt, List.filter_cons_of_pos hacc, List.map_cons, hsub,
          List.getElem?_cons_succ]
    · have hacc2 : v.predicate_ (raw_address v i) (raw_char m v i) = false := by
        simpa [accepted] using hacc
      simp only [bind, Except.bind, hacc2]
      rw [List.filter_cons_of_neg hacc]
      exact ih count hl2 hc

theorem subscript_loop_range {m : Mem} {v : filtered_string_view} (hr : readable m v) (n : Nat) :
    subscript_loop m v n (List.range v.length_) 0 = .ok ((filtered_sequence m v)[n]?) :=
  subscript_loop_ok hr n _ 0 (fun _ hi => List.mem_range.mp hi) (Nat.zero_le n)

theorem subscript_ok {m : Mem} {v : filtered_string_view} (hr : readable m v) {n : Nat}
    (hn : n < (filtered_sequence m v).length) :
    subscript m v n = .ok ((filtered_sequence m v)[n]) := by
  unfold subscript
  rw [subscript_loop_range hr, List.getElem?_eq_getElem hn]
  rfl

theorem at_ok {m : Mem} {v : filtered_string_view} (hr : readable m v) {n : Nat}
    (hn : n < (filtered_sequence m v).length) :
    at_ m v n = .ok ((filtered_sequence m v)[n]) := by
  unfold at_
  rw [subscript_loop_range hr, List.getElem?_eq_getElem hn]
  rfl

theorem at_throws {m : Mem} {v : filtered_string_view} (hr : readable m v) {n : Nat}
    (hn : (filtered_sequence m v).length ≤ n) :
    at_ m v n = .error (.domain_error
      ("filtered_string_view::at(" ++ toString n ++ "): invalid index")) := by
  unfold at_
  rw [subscript_loop_range hr, List.getElem?_eq_none hn]
  rfl

/-! ## Lemmas on the iterator -/

theorem positions_from_stop {m : Mem} {v : filtered_string_view} {s : Nat}
    (hs : v.length_ ≤ s) : positions_from m v s = [] := by
  unfold positions_from
  have h0 : v.length_ - s = 0 := by omega
  rw [h0]
  rfl

theorem positions_from_step {m : Mem} {v : filtered_string_view} {s : Nat}
    (hs : s < v.length_) :
    positions_from m v s
      = if accepted m v s then s :: positions_from m v (s + 1) else positions_from m v (s + 1) := by
  unfold positions_from
  have h1 : v.length_ - s = (v.length_ - (s + 1)) + 1 := by omega
  rw [h1, List.range'_succ, List.filter_cons]

theorem positions_from_zero (m : Mem) (v : filtered_string_view) :
    positions_from m v 0 = filtered_positions m v := by
  simp [positions_from, filtered_positions, List.range_eq_range']

theorem positions_from_cons {m : Mem} {v : filtered_string_view} :
    ∀ (n s p : Nat) (rest : List Nat), n = v.length_ - s → positions_from m v s = p :: rest →
      p < v.length_ ∧ rest = positions_from m v (p + 1) := by
  intro n
  induction n with
  | zero =>
    intro s p rest hn h
    rw [positions_from_stop (by omega)] at h
    cases h
  | succ n ih =>
    intro s p rest hn h
    have hs : s < v.length_ := by omega
    rw [positions_from_step hs] at h
    by_cases hacc : accepted m v s
    · rw [if_pos hacc] at h
      cases h
      exact ⟨hs, rfl⟩
    · rw [if_neg hacc] at h
      exact ih (s + 1) p rest (by omega) h

theorem first_valid_loop_ok {m : Mem} {v : filtered_string_view} (hr : readable m v) :
    ∀ (n s : Nat), n = v.length_ - s → s ≤ v.length_ →
      first_valid_loop m v n s = .ok ((positions_from m v s).headD v.length_) := by
  intro n
  induction n with
  | zero =>
    intro s hn hs
    rw [positions_from_stop (by omega)]
    have : s = v.length_ := by omega
    subst this
    rfl
  | succ n ih =>
    intro s hn hs
    have hlt : s < v.length_ := by omega
    unfold first_valid_loop
    rw [if_pos hlt, subscript_ptr_ok hr hlt, positions_from_step hlt]
    by_cases hacc : accepted m v s
    · have hacc2 : v.predicate_ (raw_address v s) (raw_char m v s) = true := hacc
      simp [bind, Except.bind, hacc, hacc2, pure, Except.pure]
    · have hacc2 : v.predicate_ (raw_address v s) (raw_char m v s) = false := by
        simpa [accepted] using hacc
      simp only [bind, Except.bind, hacc2, Bool.not_false, if_true, if_neg hacc]
      exact ih (s + 1) (by omega) (by omega)

theorem first_valid_ok {m : Mem} {v : filtered_string_view} (hr : readable m v) {s : Nat}
    (hs : s ≤ v.length_) :
    first_valid m v s = .ok ((positions_from m v s).headD v.length_) :=
  first_valid_loop_ok hr _ s rfl hs

theorem begin_ok {m : Mem} {v : filtered_string_view} (hr : readable m v) :
    begin m v = .ok ⟨(filtered_positions m v).headD v.length_⟩ := by
  unfold begin
  rw [first_valid_ok hr (Nat.zero_le _), positions_from_zero]
  rfl

theorem increment_ok {m : Mem} {v : filtered_string_view} (hr : readable m v) {p : Nat}
    (hp : p < v.length_) :
    increment m v ⟨p⟩ = .ok ⟨(positions_from m v (p + 1)).headD v.length_⟩ := by
  unfold increment
  rw [first_valid_ok hr hp]
  rfl

theorem deref_ok {m : Mem} {v : filtered_string_view} (hr : readable m v) {p : Nat}
    (hp : p < v.length_) : deref m v ⟨p⟩ = .ok (raw_char m v p) := by
  unfold deref
  rw [subscript_ptr_ok hr hp]
  rfl

theorem stream_loop_ok {m : Mem} {v : filtered_string_view} (hr : readable m v) :
    ∀ (l : List Nat) (s fuel : Nat) (os : List Char), positions_from m v s = l →
      l.length < fuel →
      stream_loop m v fuel ⟨l.headD v.length_⟩ os = .ok (os ++ l.map (raw_char m v)) := by
  intro l
  induction l with
  | nil =>
    intro s fuel os _ hf
    obtain ⟨k, rfl⟩ : ∃ k, fuel = k + 1 := ⟨fuel - 1, by simp at hf; omega⟩
    simp [stream_loop, end_]
    rfl
  | cons p rest ih =>
    intro s fuel os hl hf
    obtain ⟨k, rfl⟩ : ∃ k, fuel = k + 1 := ⟨fuel - 1, by simp at hf; omega⟩
    obtain ⟨hp, hrest⟩ := positions_from_cons _ s p rest rfl hl
    have hne : (⟨p⟩ : iter) ≠ end_ v := by
      intro h
      have : p = v.length_ := congrArg iter.pos_ h
      omega
    unfold stream_loop
    rw [List.headD_cons, if_pos hne, deref_ok hr hp, increment_ok hr hp, ← hrest]
    simp only [bind, Except.bind]
    rw [ih (p + 1) k (os ++ [raw_char m v p]) hrest.symm (by simp at hf; omega)]
    simp

theorem range_for_ok {m : Mem} {v : filtered_string_view} (hr : readable m v) :
    range_for m v = .ok (filtered_sequence m v) := by
  unfold range_for
  rw [begin_ok hr]
  simp only [bind, Except.bind]
  rw [stream_loop_ok hr (filtered_positions m v) 0 _ [] (positions_from_zero m v)]
  · rfl
  · have : (filtered_positions m v).length ≤ v.length_ := by
      unfold filtered_positions
      exact (List.length_filter_le _ _).trans (by simp)
    omega

/-! ## Lemmas on the comparisons -/

theorem eq_loop_ok {m : Mem} {a b : filtered_string_view} (ha : readable m a)
    (hb : readable m b) :
    ∀ (l : List Nat), (∀ i ∈ l, i < (filtered_sequence m a).length
        ∧ i < (filtered_sequence m b).length) →
      eq_loop m a b l
        = .ok (l.all (fun i => decide ((filtered_sequence m a)[i]? = (filtered_sequence m b)[i]?))) := by
  intro l
  induction l with
  | nil => intro _; rfl
  | cons i l ih =>
    intro h
    obtain ⟨hia, hib⟩ := h i (List.mem_cons_self i l)
    unfold eq_loop
    rw [subscript_ok ha hia, subscript_ok hb hib]
    simp only [bind, Except.bind]
    rw [ih (fun j hj => h j (List.mem_cons_of_mem i hj))]
    rw [List.all_cons, List.getElem?_eq_getElem hia, List.getElem?_eq_getElem hib]
    by_cases hxy : (filtered_sequence m a)[i] = (filtered_sequence m b)[i]
    · simp [hxy]
    · simp [hxy]
      rfl

theorem operator_eq_ok {m : Mem} {a b : filtered_string_view} (ha : readable m a)
    (hb : readable m b) :
    operator_eq m a b = .ok (decide (filtered_sequence m a = filtered_sequence m b)) := by
  unfold operator_eq
  rw [size_eq_length ha, size_eq_length hb]
  simp only [bind, Except.bind]
  by_cases hlen : (filtered_sequence m a).length = (filtered_sequence m b).length
  · rw [if_neg (not_not.mpr hlen), eq_loop_ok ha hb]
    · congr 1
      rw [Bool.eq_iff_iff]
      simp only [List.all_eq_true, List.mem_range, decide_eq_true_eq]
      constructor
      · intro h
        apply List.ext_getElem? 
        intro i
        by_cases hi : i < (filtered_sequence m a).length
        · exact h i hi
        · rw [List.getElem?_eq_none (by omega), List.getElem?_eq_none (by omega)]
      · intro h i _
        rw [h]
    · intro i hi
      have := List.mem_range.mp hi
      omega
  · rw [if_pos hlen]
    have hne : filtered_sequence m a ≠ filtered_sequence m b := fun h => hlen (by rw [h])
    simp [hne]
    rfl

theorem char_value_injective {x y : Char} (h : char_value x = char_value y) : x = y := by
  have hn : x.toNat = y.toNat := by
    unfold char_value at h
    split_ifs at h <;> omega
  rw [← Char.ofNat_toNat x, ← Char.ofNat_toNat y, hn]

theorem char_lt_irrefl (x : Char) : ¬ char_lt x x := by
  unfold char_lt
  omega

theorem char_lt_asymm {x y : Char} (h : char_lt x y) : ¬ char_lt y x := by
  unfold char_lt at *
  omega

theorem char_lt_trichotomy (x y : Char) : char_lt x y ∨ x = y ∨ char_lt y x := by
  rcases lt_trichotomy (char_value x) (char_value y) with h | h | h
  · exact Or.inl h
  · exact Or.inr (Or.inl (char_value_injective h))
  · exact Or.inr (Or.inr h)

theorem char_lt_ascii {x y : Char} (hx : x.toNat < 128) (hy : y.toNat < 128) :
    char_lt x y ↔ x.toNat < y.toNat := by
  unfold char_lt char_value
  rw [if_pos hx, if_pos hy]
  omega

theorem lex_cons_cons (x y : Char) (xs ys : List Char) :
    List.Lex char_lt (x :: xs) (y :: ys) ↔ char_lt x y ∨ (x = y ∧ List.Lex char_lt xs ys) := by
  constructor
  · intro h
    cases h with
    | cons h => exact Or.inr ⟨rfl, h⟩
    | rel h => exact Or.inl h
  · rintro (h | ⟨rfl, h⟩)
    · exact List.Lex.rel h
    · exact List.Lex.cons h

theorem lex_trichotomy (x y : List Char) :
    List.Lex char_lt x y ∨ x = y ∨ List.Lex char_lt y x :=
  (@List.Lex.isTrichotomous Char char_lt ⟨char_lt_trichotomy⟩).trichotomous x y

theorem lex_asymm {x y : List Char} (h : List.Lex char_lt x y) : ¬ List.Lex char_lt y x :=
  (@List.Lex.isAsymm Char char_lt ⟨fun _ _ h1 h2 => char_lt_asymm h1 h2⟩).asymm x y h

theorem lex_irrefl (x : List Char) : ¬ List.Lex char_lt x x :=
  fun h => lex_asymm h h

theorem lexicographical_compare_ok {m : Mem} {a b : filtered_string_view} (ha : readable m a)
    (hb : readable m b) :
    ∀ (la lb : List Nat) (sa sb fuel : Nat), positions_from m a sa = la →
      positions_from m b sb = lb → la.length < fuel →
      lexicographical_compare m a b fuel ⟨la.headD a.length_⟩ ⟨lb.headD b.length_⟩
        = .ok (decide (List.Lex char_lt (la.map (raw_char m a)) (lb.map (raw_char m b)))) := by
  intro la
  induction la with
  | nil =>
    intro lb sa sb fuel _ hlb hf
    obtain ⟨k, rfl⟩ : ∃ k, fuel = k + 1 := ⟨fuel - 1, by simp at hf; omega⟩
    unfold lexicographical_compare
    cases lb with
    | nil =>
      simp [end_, List.Lex.not_nil_right]
      rfl
    | cons q rb =>
      obtain ⟨hq, _⟩ := positions_from_cons _ sb q rb rfl hlb
      have hne : q ≠ b.length_ := by omega
      simp [end_, hne, List.Lex.nil]
      rfl
  | cons p ra ih =>
    intro lb sa sb fuel hla hlb hf
    obtain ⟨k, rfl⟩ : ∃ k, fuel = k + 1 := ⟨fuel - 1, by simp at hf; omega⟩
    obtain ⟨hp, hra⟩ := positions_from_cons _ sa p ra rfl hla
    have hpne : p ≠ a.length_ := by omega
    unfold lexicographical_compare
    cases lb with
    | nil =>
      simp [end_, hpne, List.Lex.not_nil_right]
      rfl
    | cons q rb =>
      obtain ⟨hq, hrb⟩ := positions_from_cons _ sb q rb rfl hlb
      have hqne : q ≠ b.length_ := by omega
      have hcond : (⟨p⟩ : iter) ≠ end_ a ∧ (⟨q⟩ : iter) ≠ end_ b := by
        simp [end_, hpne, hqne]
      rw [List.headD_cons, List.headD_cons, if_pos hcond, deref_ok ha hp, deref_ok hb hq]
      simp only [bind, Except.bind, List.map_cons]
      by_cases hxy : char_lt (raw_char m a p) (raw_char m b q)
      · rw [if_pos hxy, decide_eq_true (List.Lex.rel hxy)]
        rfl
      · rw [if_neg hxy]
        by_cases hyx : char_lt (raw_char m b q) (raw_char m a p)
        · rw [if_pos hyx]
          have hnot : ¬ List.Lex char_lt (raw_char m a p :: ra.map (raw_char m a))
              (raw_char m b q :: rb.map (raw_char m b)) := by
            rw [lex_cons_cons]
            rintro (h | ⟨h, _⟩)
            · exact hxy h
            · rw [h] at hyx
              exact char_lt_irrefl _ hyx
          rw [decide_eq_false hnot]
          rfl
        · rw [if_neg hyx, increment_ok ha hp, increment_ok hb hq]
          have hxeq : raw_char m a p = raw_char m b q := by
            rcases char_lt_trichotomy (raw_char m a p) (raw_char m b q) with h | h | h
            · exact absurd h hxy
            · exact h
            · exact absurd h hyx
          simp only [← hra, ← hrb]
          rw [ih rb (p + 1) (q + 1) k hra.symm hrb.symm (by simp at hf; omega)]
          congr 1
          rw [decide_eq_decide, lex_cons_cons]
          constructor
          · intro h
            exact Or.inr ⟨hxeq, h⟩
          · rintro (h | ⟨_, h⟩)
            · exact absurd h hxy
            · exact h

theorem length_filtered_positions_le (m : Mem) (v : filtered_string_view) :
    (filtered_positions m v).length ≤ v.length_ := by
  unfold filtered_positions
  exact (List.length_filter_le _ _).trans (by simp)

theorem operator_lt_ok {m : Mem} {a b : filtered_string_view} (ha : readable m a)
    (hb : readable m b) :
    operator_lt m a b
      = .ok (decide (List.Lex char_lt (filtered_sequence m a) (filtered_sequence m b))) := by
  unfold operator_lt
  rw [begin_ok ha, begin_ok hb]
  simp only [bind, Except.bind]
  have := length_filtered_positions_le m a
  exact lexicographical_compare_ok ha hb _ _ 0 0 _ (positions_from_zero m a)
    (positions_from_zero m b) (by omega)

/-! ## Size, conversion and element access -/

/-- C4: for every view over a readable buffer, `size()` returns the number of raw positions
`i` in `[0, length_)` whose character satisfies the predicate of the view, and `empty()`
returns true exactly when that number is zero. -/
theorem size_counts_accepted (m : Mem) (v : filtered_string_view) (hr : readable m v) :
    size m v = .ok ((List.range v.length_).countP
        (fun i => v.predicate_ (raw_address v i) (raw_char m v i)))
      ∧ empty m v = .ok (decide ((List.range v.length_).countP
        (fun i => v.predicate_ (raw_address v i) (raw_char m v i)) = 0)) := by
  have hs := size_ok hr
  refine ⟨hs, ?_⟩
  unfold empty
  rw [hs]
  rfl

theorem size_counts_accepted_witness :
    readable cat_memory cat_view
      ∧ (size cat_memory cat_view = .ok ((List.range cat_view.length_).countP
          (fun i => cat_view.predicate_ (raw_address cat_view i) (raw_char cat_memory cat_view i)))
        ∧ empty cat_memory cat_view = .ok (decide ((List.range cat_view.length_).countP
          (fun i => cat_view.predicate_ (raw_address cat_view i)
            (raw_char cat_memory cat_view i)) = 0))) :=
  ⟨by decide, size_counts_accepted cat_memory cat_view (by decide)⟩

/-- C5: for every view over a readable buffer, the explicit string conversion returns the
backing buffer filtered by the predicate, in raw order; its length is what `size()` returns,
and its `k`-th character is what `operator[]` returns at `k`, for every `k` below that
length. -/
theorem to_string_filtered (m : Mem) (v : filtered_string_view) (hr : readable m v) :
    to_string m v = .ok (((List.range v.length_).filter
        (fun i => v.predicate_ (raw_address v i) (raw_char m v i))).map (raw_char m v))
      ∧ ∀ s, to_string m v = .ok s →
          size m v = .ok s.length ∧ ∀ k (hk : k < s.length), subscript m v k = .ok s[k] := by
  have ht := to_string_ok hr
  refine ⟨ht, ?_⟩
  intro s hs
  rw [ht] at hs
  cases hs
  exact ⟨size_eq_length hr, fun k hk => subscript_ok hr hk⟩

theorem to_string_filtered_witness :
    readable cat_memory cat_view
      ∧ (to_string cat_memory cat_view = .ok (((List.range cat_view.length_).filter
          (fun i => cat_view.predicate_ (raw_address cat_view i)
            (raw_char cat_memory cat_view i))).map (raw_char cat_memory cat_view))
        ∧ ∀ s, to_string cat_memory cat_view = .ok s →
            size cat_memory cat_view = .ok s.length
              ∧ ∀ k (hk : k < s.length), subscript cat_memory cat_view k = .ok s[k]) :=
  ⟨by decide, to_string_filtered cat_memory cat_view (by decide)⟩

/-- C6: for every view over a readable buffer and every index `n`, with `N` the value of
`size()`: if `n < N` then `at(n)` returns the `n`-th character of the filtered sequence, the
same character as `operator[]`; if `n >= N` then `at(n)` throws instead of returning. -/
theorem at_checked (m : Mem) (v : filtered_string_view) (n N : Nat) (hr : readable m v)
    (hN : size m v = .ok N) :
    (n < N → ∃ c, (filtered_sequence m v)[n]? = some c ∧ at_ m v n = .ok c
        ∧ subscript m v n = .ok c)
      ∧ (N ≤ n → ∃ e, at_ m v n = .error e) := by
  rw [size_eq_length hr] at hN
  cases hN
  constructor
  · intro hn
    exact ⟨(filtered_sequence m v)[n], List.getElem?_eq_getElem hn, at_ok hr hn,
      subscript_ok hr hn⟩
  · intro hn
    exact ⟨_, at_throws hr hn⟩

theorem at_checked_witness :
    readable cat_memory cat_view ∧ size cat_memory cat_view = .ok 1
      ∧ ((0 < 1 → ∃ c, (filtered_sequence cat_memory cat_view)[0]? = some c
            ∧ at_ cat_memory cat_view 0 = .ok c ∧ subscript cat_memory cat_view 0 = .ok c)
        ∧ (1 ≤ 0 → ∃ e, at_ cat_memory cat_view 0 = .error e)) :=
  ⟨by decide, by decide, at_checked cat_memory cat_view 0 1 (by decide) (by decide)⟩

/-! ## Comparison and output -/

/-- C7: for every two views over readable buffers (any buffers, any predicates), `a == b`
returns true exactly when the filtered sequences of `a` and `b` are the same list of
characters (same length, same characters in the same order); hence `==` is reflexive,
symmetric and transitive. -/
theorem operator_eq_filtered (m : Mem) (a b c : filtered_string_view) (ha : readable m a)
    (hb : readable m b) (hc : readable m c) :
    operator_eq m a b = .ok (decide (filtered_sequence m a = filtered_sequence m b))
      ∧ operator_eq m a a = .ok true
      ∧ (operator_eq m a b = .ok true → operator_eq m b a = .ok true)
      ∧ (operator_eq m a b = .ok true → operator_eq m b c = .ok true
          → operator_eq m a c = .ok true) := by
  refine ⟨operator_eq_ok ha hb, ?_, ?_, ?_⟩
  · rw [operator_eq_ok ha ha]
    simp
  · rw [operator_eq_ok ha hb, operator_eq_ok hb ha]
    intro h
    have hab : filtered_sequence m a = filtered_sequence m b := by simpa using h
    simp [hab]
  · rw [operator_eq_ok ha hb, operator_eq_ok hb hc, operator_eq_ok ha hc]
    intro h1 h2
    have hab : filtered_sequence m a = filtered_sequence m b := by simpa using h1
    have hbc : filtered_sequence m b = filtered_sequence m c := by simpa using h2
    simp [hab, hbc]

theorem operator_eq_filtered_witness :
    readable bananas_memory fban ∧ readable bananas_memory bnns
      ∧ readable bananas_memory apples
      ∧ (operator_eq bananas_memory fban bnns = .ok (decide
            (filtered_sequence bananas_memory fban = filtered_sequence bananas_memory bnns))
        ∧ operator_eq bananas_memory fban fban = .ok true
        ∧ (operator_eq bananas_memory fban bnns = .ok true
            → operator_eq bananas_memory bnns fban = .ok true)
        ∧ (operator_eq bananas_memory fban bnns = .ok true
            → operator_eq bananas_memory bnns apples = .ok true
            → operator_eq bananas_memory fban apples = .ok true)) :=
  ⟨by decide, by decide, by decide,
    operator_eq_filtered bananas_memory fban bnns apples (by decide) (by decide) (by decide)⟩

theorem operator_lt_of_tests :
    char_value (Char.ofNat 233) = -23
      ∧ operator_lt high_memory high_view a_view = .ok true
      ∧ operator_lt high_memory a_view high_view = .ok false
      ∧ operator_lt bananas_memory apples fban = .ok true
      ∧ operator_lt bananas_memory fban apples = .ok false
      ∧ operator_lt bananas_memory fban bnns = .ok false
      ∧ operator_le bananas_memory fban bnns = .ok true := by
  decide

/-- C8: for every two views over readable buffers, `a < b` returns true exactly when the
filtered sequence of `a` is lexicographically smaller than that of `b` under the order `<`
of `char`, the order of the promoted values of the signed 8-bit `char` (a proper prefix is
smaller); the result depends on the filtered sequences only, so rejected raw characters
never influence it. -/
theorem operator_lt_lexicographic (m : Mem) (a b : filtered_string_view) (ha : readable m a)
    (hb : readable m b) :
    operator_lt m a b
        = .ok (decide (List.Lex char_lt (filtered_sequence m a) (filtered_sequence m b)))
      ∧ ∀ (m2 : Mem) (a2 b2 : filtered_string_view), readable m2 a2 → readable m2 b2 →
          filtered_sequence m2 a2 = filtered_sequence m a →
          filtered_sequence m2 b2 = filtered_sequence m b →
          operator_lt m2 a2 b2 = operator_lt m a b := by
  refine ⟨operator_lt_ok ha hb, ?_⟩
  intro m2 a2 b2 ha2 hb2 hsa hsb
  rw [operator_lt_ok ha hb, operator_lt_ok ha2 hb2, hsa, hsb]

theorem operator_lt_lexicographic_witness :
    readable high_memory high_view ∧ readable high_memory a_view
      ∧ (operator_lt high_memory high_view a_view
            = .ok (decide (List.Lex char_lt (filtered_sequence high_memory high_view)
                (filtered_sequence high_memory a_view)))
        ∧ ∀ (m2 : Mem) (a2 b2 : filtered_string_view), readable m2 a2 → readable m2 b2 →
            filtered_sequence m2 a2 = filtered_sequence high_memory high_view →
            filtered_sequence m2 b2 = filtered_sequence high_memory a_view →
            operator_lt m2 a2 b2 = operator_lt high_memory high_view a_view) :=
  ⟨by decide, by decide,
    operator_lt_lexicographic high_memory high_view a_view (by decide) (by decide)⟩

/-- C9: for every two views over readable buffers, `a <= b` returns true exactly when
`a < b` or `a == b` does, and `a >= b` returns true exactly when `b < a` or `a == b`
does. -/
theorem le_ge_closures (m : Mem) (a b : filtered_string_view) (ha : readable m a)
    (hb : readable m b) :
    ∃ lt gt eq : Bool, operator_lt m a b = .ok lt ∧ operator_lt m b a = .ok gt
      ∧ operator_eq m a b = .ok eq ∧ operator_le m a b = .ok (lt || eq)
      ∧ operator_ge m a b = .ok (gt || eq) := by
  refine ⟨_, _, _, operator_lt_ok ha hb, operator_lt_ok hb ha, operator_eq_ok ha hb, ?_, ?_⟩
  · unfold operator_le
    rw [operator_lt_ok hb ha]
    simp only [bind, Except.bind, pure, Except.pure]
    congr 1
    rcases lex_trichotomy (filtered_sequence m a) (filtered_sequence m b) with h | h | h
    · have hn : ¬ List.Lex char_lt (filtered_sequence m b) (filtered_sequence m a) :=
        lex_asymm h
      simp [h, hn]
    · have hn : ¬ List.Lex char_lt (filtered_sequence m b) (filtered_sequence m b) :=
        lex_irrefl _
      simp [h, hn]
    · have hn : ¬ List.Lex char_lt (filtered_sequence m a) (filtered_sequence m b) :=
        lex_asymm h
      have hne : filtered_sequence m a ≠ filtered_sequence m b := by
        intro he
        rw [he] at h
        exact lex_irrefl _ h
      simp [h, hn, hne]
  · unfold operator_ge
    rw [operator_lt_ok ha hb]
    simp only [bind, Except.bind, pure, Except.pure]
    congr 1
    rcases lex_trichotomy (filtered_sequence m a) (filtered_sequence m b) with h | h | h
    · have hn : ¬ List.Lex char_lt (filtered_sequence m b) (filtered_sequence m a) :=
        lex_asymm h
      have hne : filtered_sequence m a ≠ filtered_sequence m b := by
        intro he
        rw [he] at h
        exact lex_irrefl _ h
      simp [h, hn, hne]
    · have hn : ¬ List.Lex char_lt (filtered_sequence m b) (filtered_sequence m b) :=
        lex_irrefl _
      simp [h, hn]
    · have hn : ¬ List.Lex char_lt (filtered_sequence m a) (filtered_sequence m b) :=
        lex_asymm h
      simp [h, hn]

theorem le_ge_closures_witness :
    readable bananas_memory fban ∧ readable bananas_memory bnns
      ∧ ∃ lt gt eq : Bool, operator_lt bananas_memory fban bnns = .ok lt
        ∧ operator_lt bananas_memory bnns fban = .ok gt
        ∧ operator_eq bananas_memory fban bnns = .ok eq
        ∧ operator_le bananas_memory fban bnns = .ok (lt || eq)
        ∧ operator_ge bananas_memory fban bnns = .ok (gt || eq) :=
  ⟨by decide, by decide, le_ge_closures bananas_memory fban bnns (by decide) (by decide)⟩

/-- C10: for every view over a readable buffer, the loop that starts at `begin()` and
applies `++` until the iterator equals `end()` stops within `length_ + 1` tests of its
condition and appends to the output exactly the filtered sequence, that is the characters
at the accepted raw offsets, each offset once, in ascending order; so `operator<<` writes
what the explicit string conversion returns. -/
theorem stream_visits_filtered (m : Mem) (v : filtered_string_view) (hr : readable m v) :
    (∀ (fuel : Nat) (os : List Char), v.length_ < fuel →
        ∃ it, begin m v = .ok it
          ∧ stream_loop m v fuel it os
              = .ok (os ++ (filtered_positions m v).map (raw_char m v)))
      ∧ List.Sorted (· < ·) (filtered_positions m v)
      ∧ (∀ i, i ∈ filtered_positions m v ↔ i < v.length_ ∧ accepted m v i = true)
      ∧ ∀ os : List Char, ∃ s, to_string m v = .ok s ∧ operator_shl m os v = .ok (os ++ s) := by
  have hlen := length_filtered_positions_le m v
  refine ⟨?_, ?_, ?_, ?_⟩
  · intro fuel os hf
    exact ⟨_, begin_ok hr, stream_loop_ok hr _ 0 fuel os (positions_from_zero m v) (by omega)⟩
  · unfold filtered_positions
    exact (List.pairwise_lt_range v.length_).filter _
  · intro i
    simp [filtered_positions]
  · intro os
    refine ⟨_, to_string_ok hr, ?_⟩
    unfold operator_shl
    rw [begin_ok hr]
    exact stream_loop_ok hr _ 0 _ os (positions_from_zero m v) (by omega)

theorem stream_visits_filtered_witness :
    readable bananas_memory fban
      ∧ ((∀ (fuel : Nat) (os : List Char), fban.length_ < fuel →
            ∃ it, begin bananas_memory fban = .ok it
              ∧ stream_loop bananas_memory fban fuel it os
                  = .ok (os ++ (filtered_positions bananas_memory fban).map
                      (raw_char bananas_memory fban)))
        ∧ List.Sorted (· < ·) (filtered_positions bananas_memory fban)
        ∧ (∀ i, i ∈ filtered_positions bananas_memory fban
            ↔ i < fban.length_ ∧ accepted bananas_memory fban i = true)
        ∧ ∀ os : List Char, ∃ s, to_string bananas_memory fban = .ok s
            ∧ operator_shl bananas_memory os fban = .ok (os ++ s)) :=
  ⟨by decide, stream_visits_filtered bananas_memory fban (by decide)⟩

/-! ## The index table of `substr`

The first loop of `substr` runs over `i < fsv.size()`, the filtered size, and not over the
raw length, so for a view that rejects some character the table `indices` misses the accepted
raw offsets at or after `size()`. -/

/-- C1 (the code at a failing input): the view over `"a?b?c"` without question marks has
size 3 and converts to `"abc"`, yet `substr(v, 0)` converts to `"ab"` and `substr(v, 2, 1)`
to the empty string, where the logical positions `[0, 3)` are `"abc"` and `[2, 3)` is
`"c"`. -/
theorem substr_marks_truncated :
    size marks_memory marks_view = .ok 3
      ∧ to_string marks_memory marks_view = .ok "abc".toList
      ∧ substr_indices marks_memory marks_view = .ok [0, 2]
      ∧ rendered marks_memory (substr marks_memory marks_view 0 none) = .ok "ab".toList
      ∧ rendered marks_memory (substr marks_memory marks_view 2 (some 1)) = .ok [] := by
  decide

/-- C2 (the code at a failing input): on the input of the test `split - basic working test`
the views returned by `split` convert to `"Malcom"`, `"Bligh"` and `"Turnbu"`; joined with
the filtered token `" "` they give `"Malcom Bligh Turnbu"`, not the filtered content
`"Malcom Bligh Turnbull"` of the view. -/
theorem split_wentworth_loses_tail :
    to_string wentworth_memory wentworth = .ok "Malcom Bligh Turnbull".toList
      ∧ to_string wentworth_memory token = .ok " ".toList
      ∧ rendered_list wentworth_memory (split wentworth_memory wentworth token)
          = .ok ["Malcom".toList, "Bligh".toList, "Turnbu".toList]
      ∧ (rendered_list wentworth_memory (split wentworth_memory wentworth token)).map
            (List.intercalate " ".toList)
          = .ok "Malcom Bligh Turnbu".toList := by
  decide

/-- C3 (the code at a failing input): the view over `"a?b?c"` without question marks has
size 3, yet `substr(v, 3)` throws `std::out_of_range`, reporting a filtered size of 2. -/
theorem substr_marks_throws_at_size :
    size marks_memory marks_view = .ok 3
      ∧ rendered marks_memory (substr marks_memory marks_view 3 none)
          = .error (.out_of_range
              "filtered_string_view::substr(3): position out of range for filtered string of size 2") := by
  decide

/-! ## Reverse traversal -/

theorem pairwise_filtered_positions (m : Mem) (v : filtered_string_view) :
    List.Pairwise (· < ·) (filtered_positions m v) := by
  unfold filtered_positions
  exact (List.pairwise_lt_range v.length_).filter _

theorem mem_filtered_positions {m : Mem} {v : filtered_string_view} {i : Nat} :
    i ∈ filtered_positions m v ↔ i < v.length_ ∧ accepted m v i = true := by
  simp [filtered_positions]

theorem headD_le_length (m : Mem) (v : filtered_string_view) (l rest : List Nat)
    (h : filtered_positions m v = l ++ rest) : rest.headD v.length_ ≤ v.length_ := by
  cases rest with
  | nil => simp
  | cons r rest2 =>
    have hr : r ∈ filtered_positions m v := by rw [h]; simp
    have := (mem_filtered_positions.mp hr).1
    simp
    omega

theorem positions_split {m : Mem} {v : filtered_string_view} {l rest : List Nat} {q : Nat}
    (h : filtered_positions m v = l ++ q :: rest) :
    q < v.length_ ∧ accepted m v q = true ∧ q < rest.headD v.length_
      ∧ (filtered_positions m v).headD v.length_ ≤ q
      ∧ ∀ j, q < j → j < rest.headD v.length_ → accepted m v j = false := by
  have hq : q ∈ filtered_positions m v := by rw [h]; simp
  obtain ⟨hql, hqa⟩ := mem_filtered_positions.mp hq
  have hpw := pairwise_filtered_positions m v
  rw [h, List.pairwise_append] at hpw
  obtain ⟨_, hpw2, hcross⟩ := hpw
  rw [List.pairwise_cons] at hpw2
  obtain ⟨hqrest, hrest⟩ := hpw2
  have hle := headD_le_length m v (l ++ [q]) rest (by rw [h]; simp)
  refine ⟨hql, hqa, ?_, ?_, ?_⟩
  · cases rest with
    | nil => simpa using hql
    | cons r rest2 => simpa using hqrest r (List.mem_cons_self r rest2)
  · rw [h]
    cases l with
    | nil => simp
    | cons x l2 =>
      have := hcross x (List.mem_cons_self x l2) q (List.mem_cons_self q rest)
      simp
      omega
  · intro j hqj hjc
    by_contra hacc
    have hacc2 : accepted m v j = true := by simpa using hacc
    have hj : j ∈ filtered_positions m v := mem_filtered_positions.mpr ⟨by omega, hacc2⟩
    rw [h, List.mem_append, List.mem_cons] at hj
    rcases hj with hj | hj | hj
    · have := hcross j hj q (List.mem_cons_self q rest)
      omega
    · omega
    · cases rest with
      | nil => cases hj
      | cons r rest2 =>
        rw [List.pairwise_cons] at hrest
        rw [List.headD_cons] at hjc
        rcases List.mem_cons.mp hj with hj | hj
        · omega
        · have := hrest.1 j hj
          omega

theorem decrement_loop_ok {m : Mem} {v : filtered_string_view} (hr : readable m v) {q : Nat}
    (hq : accepted m v q = true) :
    ∀ (k p : Nat), p = q + k → p < v.length_ →
      (∀ j, q < j → j ≤ p → accepted m v j = false) →
      decrement_loop m v p p = .ok q := by
  intro k
  induction k with
  | zero =>
    intro p hp hlt _
    have hpq : p = q := by omega
    subst hpq
    cases p with
    | zero => rfl
    | succ p =>
      unfold decrement_loop
      have hacc2 : v.predicate_ (raw_address v (p + 1)) (raw_char m v (p + 1)) = true := hq
      rw [if_pos (Nat.succ_pos p), subscript_ptr_ok hr hlt]
      simp [bind, Except.bind, hacc2, pure, Except.pure]
  | succ k ih =>
    intro p hp hlt hno
    obtain ⟨p2, rfl⟩ : ∃ p2, p = p2 + 1 := ⟨p - 1, by omega⟩
    have hacc : accepted m v (p2 + 1) = false := hno (p2 + 1) (by omega) (Nat.le_refl _)
    have hacc2 : v.predicate_ (raw_address v (p2 + 1)) (raw_char m v (p2 + 1)) = false := hacc
    unfold decrement_loop
    rw [if_pos (Nat.succ_pos p2), subscript_ptr_ok hr hlt]
    simp only [bind, Except.bind, hacc2, Bool.not_false, if_true, Nat.add_sub_cancel]
    exact ih p2 (by omega) (by omega) (fun j h1 h2 => hno j h1 (by omega))

theorem decrement_ok {m : Mem} {v : filtered_string_view} (hr : readable m v)
    (hlen : v.length_ < 2 ^ 64) {l rest : List Nat} {q : Nat}
    (h : filtered_positions m v = l ++ q :: rest) :
    decrement m v ⟨rest.headD v.length_⟩ = .ok ⟨q⟩ := by
  obtain ⟨_, hqa, hqc, _, hno⟩ := positions_split h
  have hle := headD_le_length m v (l ++ [q]) rest (by rw [h]; simp)
  unfold decrement
  have hp : (rest.headD v.length_ + 2 ^ 64 - 1) % 2 ^ 64 = rest.headD v.length_ - 1 := by
    have h1 : rest.headD v.length_ + 2 ^ 64 - 1 = (rest.headD v.length_ - 1) + 2 ^ 64 := by
      omega
    rw [h1, Nat.add_mod_right, Nat.mod_eq_of_lt (by omega)]
  simp only [hp]
  rw [decrement_loop_ok hr hqa (rest.headD v.length_ - 1 - q) _ (by omega) (by omega)
    (fun j h1 h2 => hno j h1 (by omega))]
  rfl

theorem reverse_loop_ok {m : Mem} {v : filtered_string_view} (hr : readable m v)
    (hlen : v.length_ < 2 ^ 64) :
    ∀ (l rest : List Nat) (fuel : Nat) (out : List Char),
      filtered_positions m v = l ++ rest → l.length < fuel →
      reverse_loop m v ⟨(filtered_positions m v).headD v.length_⟩ fuel
          ⟨rest.headD v.length_⟩ out
        = .ok (out ++ (l.map (raw_char m v)).reverse) := by
  intro l
  induction l using List.reverseRecOn with
  | nil =>
    intro rest fuel out h hf
    obtain ⟨k, rfl⟩ : ∃ k, fuel = k + 1 := ⟨fuel - 1, by simp at hf; omega⟩
    rw [List.nil_append] at h
    unfold reverse_loop
    rw [h]
    simp
    rfl
  | append_singleton l q ih =>
    intro rest fuel out h hf
    obtain ⟨k, rfl⟩ : ∃ k, fuel = k + 1 := ⟨fuel - 1, by simp at hf; omega⟩
    have h2 : filtered_positions m v = l ++ q :: rest := by rw [h]; simp
    obtain ⟨hql, _, hqc, hhead, _⟩ := positions_split h2
    have hne : (⟨rest.headD v.length_⟩ : iter)
        ≠ ⟨(filtered_positions m v).headD v.length_⟩ := by
      intro he
      have := congrArg iter.pos_ he
      simp only at this
      omega
    unfold reverse_loop
    rw [if_pos hne, decrement_ok hr hlen h2]
    simp only [bind, Except.bind]
    rw [deref_ok hr hql]
    simp only [bind, Except.bind]
    have := ih (q :: rest) k (out ++ [raw_char m v q]) h2 (by simp at hf; omega)
    rw [List.headD_cons] at this
    rw [this]
    simp

theorem reverse_traversal_ok {m : Mem} {v : filtered_string_view} (hr : readable m v)
    (hlen : v.length_ < 2 ^ 64) :
    reverse_traversal m v = .ok (filtered_sequence m v).reverse := by
  unfold reverse_traversal
  rw [begin_ok hr]
  simp only [bind, Except.bind]
  have hl := length_filtered_positions_le m v
  have := reverse_loop_ok hr hlen (filtered_positions m v) [] (v.length_ + 1) []
    (by simp) (by omega)
  simpa [end_, filtered_sequence] using this

/-- C11: for every view over a readable buffer (with `length_` a `std::size_t`), the
traversal from `rbegin()` to `rend()`, which reads the element before the base and steps by
`--` on the base until the base equals `begin()`, ends within `length_ + 1` tests of its
condition and yields the reverse of the filtered sequence, whatever raw characters the
predicate rejects at the start of the buffer. -/
theorem reverse_traversal_reverses (m : Mem) (v : filtered_string_view) (hr : readable m v)
    (hlen : v.length_ < 2 ^ 64) :
    (∀ fuel : Nat, v.length_ < fuel →
        ∃ last, begin m v = .ok last
          ∧ reverse_loop m v last fuel (end_ v) [] = .ok (filtered_sequence m v).reverse)
      ∧ reverse_traversal m v = .ok (filtered_sequence m v).reverse
      ∧ ∀ s, to_string m v = .ok s → reverse_traversal m v = .ok s.reverse := by
  refine ⟨?_, reverse_traversal_ok hr hlen, ?_⟩
  · intro fuel hf
    have hl := length_filtered_positions_le m v
    have := reverse_loop_ok hr hlen (filtered_positions m v) [] fuel []
      (by simp) (by omega)
    exact ⟨_, begin_ok hr, by simpa [end_, filtered_sequence] using this⟩
  · intro s hs
    rw [to_string_ok hr] at hs
    cases hs
    exact reverse_traversal_ok hr hlen

theorem reverse_traversal_reverses_witness :
    readable lead_memory lead_view ∧ lead_view.length_ < 2 ^ 64
      ∧ ((∀ fuel : Nat, lead_view.length_ < fuel →
            ∃ last, begin lead_memory lead_view = .ok last
              ∧ reverse_loop lead_memory lead_view last fuel (end_ lead_view) []
                  = .ok (filtered_sequence lead_memory lead_view).reverse)
        ∧ reverse_traversal lead_memory lead_view
            = .ok (filtered_sequence lead_memory lead_view).reverse
        ∧ ∀ s, to_string lead_memory lead_view = .ok s →
            reverse_traversal lead_memory lead_view = .ok s.reverse) :=
  ⟨by decide, by decide,
    reverse_traversal_reverses lead_memory lead_view (by decide) (by decide)⟩

/-! ## Lemmas on `substr` -/

theorem strlen_from_lt : ∀ (l : List Char) (n : Nat), strlen_from l = .ok n → n < l.length := by
  intro l
  induction l with
  | nil => intro n h; cases h
  | cons c cs ih =>
    intro n h
    unfold strlen_from at h
    by_cases hc : c = NUL
    · rw [if_pos hc] at h
      cases h
      simp
    · rw [if_neg hc] at h
      cases hk : strlen_from cs with
      | error e => rw [hk] at h; cases h
      | ok k =>
        rw [hk] at h
        cases h
        have := ih k hk
        simp
        omega

theorem readable_of_strlen {m : Mem} {v : filtered_string_view}
    (hz : strlen m v.pointer_ = .ok v.length_) : readable m v := by
  unfold readable
  unfold strlen at hz
  cases hp : v.pointer_ with
  | none => rw [hp] at hz; cases hz
  | some a =>
    rw [hp] at hz
    have := strlen_from_lt _ _ hz
    simp at this
    simp only
    omega

theorem ctor_cstr_ok {m : Mem} {v : filtered_string_view}
    (hz : strlen m v.pointer_ = .ok v.length_) (pred : filter) :
    ctor_cstr m (data v) pred = .ok (with_predicate v pred) := by
  unfold ctor_cstr data
  rw [hz]
  rfl

theorem foldl_append_filter (p : Nat → Bool) : ∀ (l init : List Nat),
    l.foldl (fun indices i => if p i then indices ++ [i] else indices) init
      = init ++ l.filter p := by
  intro l
  induction l with
  | nil => intro init; simp
  | cons a l ih =>
    intro init
    rw [List.foldl_cons, ih]
    by_cases h : p a <;> simp [h]

theorem substr_indices_ok {m : Mem} {v : filtered_string_view} (hr : readable m v) :
    substr_indices m v
      = .ok ((List.range (filtered_sequence m v).length).filter (accepted m v)) := by
  unfold substr_indices
  rw [size_eq_length hr]
  simp only [bind, Except.bind]
  rw [foldlM_ok _ (fun indices i => if accepted m v i then indices ++ [i] else indices)]
  · rw [foldl_append_filter]; simp
  · intro b a ha
    have hlt : a < v.length_ := by
      have h1 := List.mem_range.mp ha
      have h2 := length_filtered_positions_le m v
      simp only [filtered_sequence, List.length_map] at h1
      omega
    unfold data
    rw [subscript_ptr_ok hr hlt]
    rfl

theorem filter_interval (pos e : Nat) : ∀ (n s : Nat),
    (List.range' s n).filter (fun i => decide (pos ≤ i) && decide (i < e))
      = List.range' (max s pos) (min (s + n) e - max s pos) := by
  intro n
  induction n with
  | zero =>
    intro s
    have h0 : min (s + 0) e - max s pos = 0 := by omega
    rw [h0]
    rfl
  | succ n ih =>
    intro s
    rw [List.range'_succ, List.filter_cons, ih]
    by_cases h1 : pos ≤ s
    · by_cases h2 : s < e
      · have hk : min (s + (n + 1)) e - max s pos = (min (s + 1 + n) e - max (s + 1) pos) + 1 := by
          omega
        have hm : max s pos = s := by omega
        have hm2 : max (s + 1) pos = s + 1 := by omega
        simp only [h1, h2, decide_True, Bool.and_self, if_true]
        rw [hk, hm, hm2, List.range'_succ]
      · have hk : min (s + (n + 1)) e - max s pos = 0 := by omega
        have hk2 : min (s + 1 + n) e - max (s + 1) pos = 0 := by omega
        simp [h2, hk, hk2]
    · have hm : max (s + 1) pos = max s pos := by omega
      have hk : min (s + 1 + n) e = min (s + (n + 1)) e := by omega
      simp [h1, hm, hk]

theorem map_range_slice (f : Nat → Char) (L pos k : Nat) (h : pos + k ≤ L) :
    (List.range' pos k).map f = (((List.range L).map f).drop pos).take k := by
  apply List.ext_getElem
  · simp
    omega
  · intro i h1 h2
    simp

theorem accepted_accept_all {m : Mem} {v : filtered_string_view}
    (hall : ∀ a c, v.predicate_ a c = true) (i : Nat) : accepted m v i = true :=
  hall _ _

theorem filtered_positions_accept_all {m : Mem} {v : filtered_string_view}
    (hall : ∀ a c, v.predicate_ a c = true) :
    filtered_positions m v = List.range v.length_ := by
  unfold filtered_positions
  rw [List.filter_eq_self]
  intro i _
  exact accepted_accept_all hall i

theorem filtered_sequence_accept_all {m : Mem} {v : filtered_string_view}
    (hall : ∀ a c, v.predicate_ a c = true) :
    filtered_sequence m v = raw_buffer m v := by
  unfold filtered_sequence raw_buffer
  rw [filtered_positions_accept_all hall]

theorem length_raw_buffer (m : Mem) (v : filtered_string_view) :
    (raw_buffer m v).length = v.length_ := by
  simp [raw_buffer]

theorem substr_indices_accept_all {m : Mem} {v : filtered_string_view} (hr : readable m v)
    (hall : ∀ a c, v.predicate_ a c = true) :
    substr_indices m v = .ok (List.range v.length_) := by
  have hf : (List.range v.length_).filter (accepted m v) = List.range v.length_ :=
    List.filter_eq_self.mpr (fun i _ => accepted_accept_all hall i)
  rw [substr_indices_ok hr, filtered_sequence_accept_all hall, length_raw_buffer, hf]

theorem ptr_diff_raw_address (v : filtered_string_view) (i : Nat) :
    ptr_diff (raw_address v i) v.pointer_ = (i : Int) := by
  unfold ptr_diff raw_address
  push_cast
  omega

theorem to_string_window {m : Mem} {v : filtered_string_view} (hr : readable m v)
    (hall : ∀ a c, v.predicate_ a c = true) {pos e : Nat} (hpe : pos ≤ e)
    (he : e ≤ v.length_) :
    to_string m (with_predicate v (substr_predicate v.pointer_ pos e v.predicate_))
      = .ok (((raw_buffer m v).drop pos).take (e - pos)) := by
  have hrw : readable m (with_predicate v (substr_predicate v.pointer_ pos e v.predicate_)) :=
    hr
  rw [to_string_ok hrw]
  have hacc : accepted m (with_predicate v (substr_predicate v.pointer_ pos e v.predicate_))
      = fun i => decide (pos ≤ i) && decide (i < e) := by
    funext i
    show substr_predicate v.pointer_ pos e v.predicate_ (raw_address v i) (raw_char m v i) = _
    unfold substr_predicate
    rw [ptr_diff_raw_address, hall]
    simp
  unfold filtered_sequence filtered_positions
  rw [hacc, List.range_eq_range', filter_interval]
  have h1 : max 0 pos = pos := by omega
  have h2 : min (0 + v.length_) e - pos = e - pos := by omega
  show Except.ok (List.map (raw_char m v) (List.range' (max 0 pos)
    (min (0 + v.length_) e - max 0 pos))) = _
  rw [h1, h2, map_range_slice _ v.length_ pos (e - pos) (by omega)]
  rfl

theorem to_string_reject_all {m : Mem} {v : filtered_string_view} (hr : readable m v) :
    to_string m (with_predicate v (fun _ _ => false)) = .ok [] := by
  have hrw : readable m (with_predicate v (fun _ _ => false)) := hr
  rw [to_string_ok hrw]
  have hf : (List.range v.length_).filter
      (accepted m (with_predicate v (fun _ _ => false))) = [] :=
    List.filter_eq_nil_iff.mpr (fun i _ => by simp [accepted, with_predicate])
  show Except.ok (List.map _ (List.filter _ (List.range v.length_))) = _
  rw [hf]
  rfl

theorem substr_with_end {m : Mem} {v : filtered_string_view} {idx : List Nat}
    (hidx : substr_indices m v = .ok idx) {pos : Nat} (hpos : pos ≤ idx.length)
    (count : Option Nat) (e : Nat)
    (hsome : ∀ c, count = some c → e = min ((pos + c) % 2 ^ 64) idx.length)
    (hnone : count = none → e = idx.length) :
    substr m v pos count
      = if pos = e then ctor_cstr m (data v) (fun _ _ => false)
        else
          match idx[pos]?, idx[(e + 2 ^ 64 - 1) % 2 ^ 64]? with
          | some i_start, some last =>
            ctor_cstr m (data v) (substr_predicate (data v) i_start (last + 1) (predicate v))
          | _, _ => throw .undefined := by
  have hnot : ¬ pos > idx.length := by omega
  cases count with
  | none =>
    have he := hnone rfl
    subst he
    unfold substr
    rw [hidx]
    simp only [bind, Except.bind]
    rw [if_neg hnot]
    rfl
  | some c =>
    have he := hsome c rfl
    subst he
    unfold substr
    rw [hidx]
    simp only [bind, Except.bind]
    rw [if_neg hnot]
    rfl

theorem effective_end_bounds {L pos : Nat} (hpos : pos ≤ L) (count : Option Nat) :
    pos ≤ effective_end L pos count ∧ effective_end L pos count ≤ L := by
  cases count with
  | none => exact ⟨hpos, Nat.le_refl L⟩
  | some c =>
    show pos ≤ min (pos + c) L ∧ min (pos + c) L ≤ L
    omega

theorem wrap_pred {e : Nat} (h1 : 0 < e) (h2 : e ≤ 2 ^ 64) :
    (e + 2 ^ 64 - 1) % 2 ^ 64 = e - 1 := by
  have h : e + 2 ^ 64 - 1 = (e - 1) + 2 ^ 64 := by omega
  rw [h, Nat.add_mod_right, Nat.mod_eq_of_lt (by omega)]

theorem substr_accept_all_ok {m : Mem} {v : filtered_string_view}
    (hall : ∀ a c, v.predicate_ a c = true) (hz : strlen m v.pointer_ = .ok v.length_)
    (hlen : v.length_ < 2 ^ 64) {pos : Nat} (hpos : pos ≤ v.length_) (count : Option Nat)
    (hcount : ∀ c, count = some c → pos + c < 2 ^ 64) :
    ∃ r, substr m v pos count = .ok r ∧ r.pointer_ = v.pointer_ ∧ r.length_ = v.length_
      ∧ to_string m r
          = .ok (((raw_buffer m v).drop pos).take (effective_end v.length_ pos count - pos)) := by
  have hr := readable_of_strlen hz
  obtain ⟨hge, hle⟩ := effective_end_bounds hpos count
  have hidx := substr_indices_accept_all hr hall
  rw [substr_with_end hidx (by rw [List.length_range]; exact hpos) count
    (effective_end v.length_ pos count)
    (fun c hc => by
      subst hc
      show min (pos + c) v.length_ = _
      rw [Nat.mod_eq_of_lt (hcount c rfl), List.length_range])
    (fun hc => by
      subst hc
      rw [List.length_range]
      rfl)]
  by_cases hpe : pos = effective_end v.length_ pos count
  · rw [if_pos hpe, ctor_cstr_ok hz]
    refine ⟨_, rfl, rfl, rfl, ?_⟩
    rw [to_string_reject_all hr, ← hpe]
    simp
  · rw [if_neg hpe, wrap_pred (by omega) (by omega)]
    have hi1 : (List.range v.length_)[pos]? = some pos := by
      rw [List.getElem?_range (by omega)]
    have hi2 : (List.range v.length_)[effective_end v.length_ pos count - 1]?
        = some (effective_end v.length_ pos count - 1) := by
      rw [List.getElem?_range (by omega)]
    rw [hi1, hi2]
    simp only
    rw [ctor_cstr_ok hz]
    refine ⟨_, rfl, rfl, rfl, ?_⟩
    have hsucc : effective_end v.length_ pos count - 1 + 1
        = effective_end v.length_ pos count := by omega
    rw [hsucc]
    exact to_string_window hr hall hge hle

/-! ## Lemmas on `split` -/

theorem length_le_of_isPrefixOf {t l : List Char} (h : t.isPrefixOf l = true) :
    t.length ≤ l.length :=
  (List.isPrefixOf_iff_prefix.mp h).length_le

theorem gaps_aux_skip (t : List Char) : ∀ (l : List Char) (k : Nat) (gap : List Char),
    gaps_aux t l k gap = gaps_aux t (l.drop k) 0 gap := by
  intro l
  induction l with
  | nil =>
    intro k gap
    cases k <;> rfl
  | cons c cs ih =>
    intro k gap
    cases k with
    | zero => rfl
    | succ k =>
      show gaps_aux t cs k gap = gaps_aux t (cs.drop k) 0 gap
      exact ih k gap

theorem occurrences_aux_skip (t : List Char) : ∀ (l : List Char) (k : Nat),
    occurrences_aux t l k = occurrences_aux t (l.drop k) 0 := by
  intro l
  induction l with
  | nil =>
    intro k
    cases k <;> rfl
  | cons c cs ih =>
    intro k
    cases k with
    | zero => rfl
    | succ k =>
      show occurrences_aux t cs k = occurrences_aux t (cs.drop k) 0
      exact ih k

theorem length_gaps_aux (t : List Char) : ∀ (l : List Char) (k : Nat) (gap : List Char),
    (gaps_aux t l k gap).length = occurrences_aux t l k + 1 := by
  intro l
  induction l with
  | nil =>
    intro k gap
    cases k <;> rfl
  | cons c cs ih =>
    intro k gap
    cases k with
    | succ k => exact ih k gap
    | zero =>
      unfold gaps_aux occurrences_aux
      by_cases hp : t.isPrefixOf (c :: cs) = true
      · rw [if_pos hp, if_pos hp, List.length_cons, ih]
      · rw [if_neg hp, if_neg hp, ih]

theorem gaps_aux_cons_zero (t : List Char) (c : Char) (cs gap : List Char) :
    gaps_aux t (c :: cs) 0 gap
      = if t.isPrefixOf (c :: cs) then gap :: gaps_aux t cs (t.length - 1) []
        else gaps_aux t cs 0 (gap ++ [c]) := by
  rw [gaps_aux]

theorem find_loop_gaps {t : List Char} (ht : t ≠ []) :
    ∀ (rest : List Char) (start : Nat) (gap : List Char),
      (find_loop t rest start = none → gaps_aux t rest 0 gap = [gap ++ rest])
        ∧ ∀ pos, find_loop t rest start = some pos →
            start ≤ pos ∧ pos - start + t.length ≤ rest.length
              ∧ gaps_aux t rest 0 gap
                  = (gap ++ rest.take (pos - start))
                      :: gaps_aux t (rest.drop (pos - start + t.length)) 0 [] := by
  have hte : t.isEmpty = false := by
    cases t with
    | nil => exact absurd rfl ht
    | cons _ _ => rfl
  have htl : 0 < t.length := List.length_pos.mpr ht
  intro rest
  induction rest with
  | nil =>
    intro start gap
    unfold find_loop
    rw [hte]
    constructor
    · intro _
      simp [gaps_aux]
    · intro pos h
      simp at h
  | cons c cs ih =>
    intro start gap
    unfold find_loop
    by_cases hp : t.isPrefixOf (c :: cs) = true
    · rw [if_pos hp]
      constructor
      · intro h
        cases h
      · intro pos h
        cases h
        have hl := length_le_of_isPrefixOf hp
        refine ⟨Nat.le_refl _, by omega, ?_⟩
        rw [gaps_aux_cons_zero, if_pos hp, gaps_aux_skip t cs (t.length - 1) []]
        have hd : (c :: cs).drop (start - start + t.length) = cs.drop (t.length - 1) := by
          obtain ⟨k, hk⟩ : ∃ k, t.length = k + 1 := ⟨t.length - 1, by omega⟩
          rw [hk]
          simp
        rw [hd]
        simp
    · rw [if_neg hp]
      obtain ⟨ih1, ih2⟩ := ih (start + 1) (gap ++ [c])
      constructor
      · intro h
        rw [gaps_aux_cons_zero, if_neg hp, ih1 h]
        simp
      · intro pos h
        obtain ⟨h1, h2, h3⟩ := ih2 pos h
        refine ⟨by omega, by simp; omega, ?_⟩
        rw [gaps_aux_cons_zero, if_neg hp, h3]
        obtain ⟨d, hd⟩ : ∃ d, pos - start = d + 1 := ⟨pos - start - 1, by omega⟩
        have hd2 : pos - (start + 1) = d := by omega
        rw [hd, hd2]
        have hd3 : d + 1 + t.length = (d + t.length) + 1 := by omega
        rw [hd3]
        simp


theorem intercalate_cons_of_ne_nil (t g : List Char) {rest : List (List Char)}
    (h : rest ≠ []) : List.intercalate t (g :: rest) = g ++ t ++ List.intercalate t rest := by
  cases rest with
  | nil => exact absurd rfl h
  | cons y ys => simp [List.intercalate, List.intersperse]

theorem gaps_aux_ne_nil (t l : List Char) (k : Nat) (gap : List Char) :
    gaps_aux t l k gap ≠ [] := by
  intro h
  have := length_gaps_aux t l k gap
  rw [h] at this
  simp at this

theorem intercalate_gaps_aux {t : List Char} (ht : t ≠ []) : ∀ (n : Nat) (l gap : List Char),
    l.length ≤ n → List.intercalate t (gaps_aux t l 0 gap) = gap ++ l := by
  intro n
  induction n with
  | zero =>
    intro l gap hl
    have : l = [] := List.length_eq_zero.mp (by omega)
    subst this
    simp [gaps_aux, List.intercalate]
  | succ n ih =>
    intro l gap hl
    cases l with
    | nil => simp [gaps_aux, List.intercalate]
    | cons c cs =>
      rw [gaps_aux_cons_zero]
      by_cases hp : t.isPrefixOf (c :: cs) = true
      · rw [if_pos hp, intercalate_cons_of_ne_nil _ _ (gaps_aux_ne_nil _ _ _ _),
          gaps_aux_skip, ih _ [] (by simp at hl ⊢; omega)]
        obtain ⟨r, hr⟩ := List.isPrefixOf_iff_prefix.mp hp
        cases t with
        | nil => exact absurd rfl ht
        | cons x xs =>
          have h1 : x = c ∧ xs ++ r = cs := by simpa using hr
          obtain ⟨rfl, rfl⟩ := h1
          simp
      · rw [if_neg hp, ih _ _ (by simp at hl; omega)]
        simp


theorem split_loop_ok {m : Mem} {v : filtered_string_view}
    (hall : ∀ a c, v.predicate_ a c = true) (hz : strlen m v.pointer_ = .ok v.length_)
    (hlen : v.length_ < 2 ^ 64) {t : List Char} (ht : t ≠ []) :
    ∀ (fuel start : Nat) (res : List filtered_string_view), start ≤ v.length_ →
      v.length_ - start < fuel →
      ∃ parts, split_loop m v (raw_buffer m v) t fuel start res = .ok (res ++ parts)
        ∧ List.Forall₂ (fun part seg => to_string m part = .ok seg) parts
            (gaps_aux t ((raw_buffer m v).drop start) 0 []) := by
  have htl : 0 < t.length := List.length_pos.mpr ht
  have hL := length_raw_buffer m v
  intro fuel
  induction fuel with
  | zero => intro start res _ hf; omega
  | succ fuel ih =>
    intro start res hs hf
    have hdl : ((raw_buffer m v).drop start).length = v.length_ - start := by
      rw [List.length_drop, hL]
    obtain ⟨hg1, hg2⟩ := find_loop_gaps ht ((raw_buffer m v).drop start) start []
    unfold split_loop
    rw [if_pos (by rw [hL]; exact hs)]
    unfold find
    rw [if_neg (by rw [hL]; omega)]
    cases hfind : find_loop t ((raw_buffer m v).drop start) start with
    | none =>
      obtain ⟨r, hsub, _, _, hstr⟩ := substr_accept_all_ok hall hz hlen hs none
        (fun c hc => by cases hc)
      simp only [hsub, bind, Except.bind, pure, Except.pure]
      refine ⟨[r], rfl, ?_⟩
      rw [hg1 hfind, List.nil_append]
      refine List.Forall₂.cons ?_ List.Forall₂.nil
      rw [hstr]
      congr 1
      apply List.take_of_length_le
      rw [hdl]
      show v.length_ - start ≤ v.length_ - start
      exact Nat.le_refl _
    | some pos =>
      obtain ⟨hp1, hp2, hg⟩ := hg2 pos hfind
      rw [hdl] at hp2
      obtain ⟨r, hsub, _, _, hstr⟩ := substr_accept_all_ok hall hz hlen hs
        (some (pos - start)) (fun c hc => by cases hc; omega)
      simp only [hsub, bind, Except.bind]
      obtain ⟨parts, hloop, hall2⟩ := ih (pos + t.length) (res ++ [r]) (by omega) (by omega)
      rw [hloop]
      refine ⟨r :: parts, by simp, ?_⟩
      rw [hg, List.nil_append]
      refine List.Forall₂.cons ?_ ?_
      · rw [hstr]
        have he : effective_end v.length_ start (some (pos - start)) - start = pos - start := by
          show min (start + (pos - start)) v.length_ - start = pos - start
          omega
        rw [he]
      · have hd : ((raw_buffer m v).drop start).drop (pos - start + t.length)
            = (raw_buffer m v).drop (pos + t.length) := by
          rw [List.drop_drop]
          congr 1
          omega
        rw [hd]
        exact hall2

theorem split_accept_all_ok {m : Mem} {v tok : filtered_string_view}
    (hall : ∀ a c, v.predicate_ a c = true) (hz : strlen m v.pointer_ = .ok v.length_)
    (hlen : v.length_ < 2 ^ 64) (hne : 0 < v.length_) (ht : readable m tok)
    (htne : filtered_sequence m tok ≠ []) :
    ∃ parts, split m v tok = .ok parts
      ∧ List.Forall₂ (fun part seg => to_string m part = .ok seg) parts
          (gaps (filtered_sequence m tok) (raw_buffer m v)) := by
  have hr := readable_of_strlen hz
  have hL := length_raw_buffer m v
  have hsne : raw_buffer m v ≠ [] := by
    intro h
    rw [h] at hL
    simp at hL
    omega
  unfold split
  rw [range_for_ok hr, range_for_ok ht, filtered_sequence_accept_all hall]
  simp only [bind, Except.bind]
  have hcond : ¬ (((filtered_sequence m tok).isEmpty || (raw_buffer m v).isEmpty) = true) := by
    simp [htne, hsne]
  rw [if_neg hcond]
  obtain ⟨parts, hloop, hf⟩ := split_loop_ok hall hz hlen htne ((raw_buffer m v).length + 2) 0 []
    (Nat.zero_le _) (by rw [hL]; omega)
  rw [hloop]
  exact ⟨parts, by simp, by simpa [gaps] using hf⟩


theorem gaps_of_tests :
    gaps "x".toList "xax".toList = [[], "a".toList, []]
      ∧ gaps "x".toList "xx".toList = [[], [], []]
      ∧ gaps "robert".toList "fishing".toList = ["fishing".toList]
      ∧ occurrences "x".toList "xax".toList = 2
      ∧ occurrences "aa".toList "aaaaa".toList = 2 := by
  decide

/-! ## Composition, sub-views and splitting -/

/-- C12: for every view whose raw length is the `strlen` of its pointer (a view over a
null-terminated buffer) and every list of predicates, `compose` returns a view over the same
buffer whose string conversion is the characters of the backing buffer that satisfy every
predicate of the list, in raw order; the predicate of the view itself plays no part, and for
the empty list the conversion is the whole backing buffer. -/
theorem compose_filters_buffer (m : Mem) (v : filtered_string_view) (ps : List filter)
    (hz : strlen m v.pointer_ = .ok v.length_) :
    ∃ r, compose m v ps = .ok r ∧ r.pointer_ = v.pointer_ ∧ r.length_ = v.length_
      ∧ to_string m r = .ok (((List.range v.length_).filter
          (fun i => ps.all (fun p => p (raw_address v i) (raw_char m v i)))).map (raw_char m v))
      ∧ (ps = [] → to_string m r = .ok (raw_buffer m v)) := by
  have hr := readable_of_strlen hz
  have hrw : readable m (with_predicate v (compose_predicate ps)) := hr
  refine ⟨with_predicate v (compose_predicate ps), ctor_cstr_ok hz _, rfl, rfl,
    to_string_ok hrw, ?_⟩
  intro hps
  subst hps
  rw [to_string_ok hrw]
  have hf : (List.range v.length_).filter (accepted m (with_predicate v (compose_predicate [])))
      = List.range v.length_ :=
    List.filter_eq_self.mpr (fun i _ => rfl)
  show Except.ok (List.map _ (List.filter _ (List.range v.length_))) = _
  rw [hf]
  rfl

theorem compose_filters_buffer_witness :
    strlen compose_memory compose_base.pointer_ = .ok compose_base.length_
      ∧ ∃ r, compose compose_memory compose_base compose_filters = .ok r
        ∧ r.pointer_ = compose_base.pointer_ ∧ r.length_ = compose_base.length_
        ∧ to_string compose_memory r = .ok (((List.range compose_base.length_).filter
            (fun i => compose_filters.all (fun p => p (raw_address compose_base i)
              (raw_char compose_memory compose_base i)))).map
                (raw_char compose_memory compose_base))
        ∧ (compose_filters = [] →
            to_string compose_memory r = .ok (raw_buffer compose_memory compose_base)) :=
  ⟨by decide, compose_filters_buffer compose_memory compose_base compose_filters (by decide)⟩

/-- C13: for every view and token over readable buffers, if the string conversion of the
view or that of the token is empty, `split` returns the sequence of exactly one view, equal
to the given view in pointer, raw length and predicate. -/
theorem split_empty_returns_view (m : Mem) (v tok : filtered_string_view)
    (hv : readable m v) (ht : readable m tok)
    (h : to_string m v = .ok [] ∨ to_string m tok = .ok []) :
    split m v tok = .ok [v] := by
  rw [to_string_ok hv, to_string_ok ht] at h
  unfold split
  rw [range_for_ok hv, range_for_ok ht]
  simp only [bind, Except.bind]
  have hcond : ((filtered_sequence m tok).isEmpty || (filtered_sequence m v).isEmpty) = true := by
    rcases h with h | h
    · have h2 : filtered_sequence m v = [] := by simpa using h
      simp [h2]
    · have h2 : filtered_sequence m tok = [] := by simpa using h
      simp [h2]
  rw [if_pos hcond]
  rfl

theorem split_empty_returns_view_witness :
    readable fishing_memory fishing_view ∧ readable fishing_memory empty_tok
      ∧ (to_string fishing_memory fishing_view = .ok []
          ∨ to_string fishing_memory empty_tok = .ok [])
      ∧ split fishing_memory fishing_view empty_tok = .ok [fishing_view] :=
  ⟨by decide, by decide, Or.inr (by decide),
    split_empty_returns_view fishing_memory fishing_view empty_tok (by decide) (by decide)
      (Or.inr (by decide))⟩

/-- C15: for every view that accepts every character, over a buffer of length `L` (a
`std::size_t`) that holds no `NUL` and is followed by one, every `pos <= L` and every count
with `pos + count < 2 ^ 64`, `substr` returns a view over the same buffer whose string
conversion is the slice of the buffer from `pos` to `min(pos + count, L)`, and from `pos`
to `L` when the count is unset. -/
theorem substr_accept_all_slice (m : Mem) (v : filtered_string_view) (pos : Nat)
    (count : Option Nat) (hall : ∀ a c, v.predicate_ a c = true)
    (hz : strlen m v.pointer_ = .ok v.length_) (hlen : v.length_ < 2 ^ 64)
    (hpos : pos ≤ v.length_) (hcount : ∀ c, count = some c → pos + c < 2 ^ 64) :
    ∃ r, substr m v pos count = .ok r ∧ r.pointer_ = v.pointer_
      ∧ (∀ c, count = some c →
          to_string m r = .ok (((raw_buffer m v).drop pos).take (min (pos + c) v.length_ - pos)))
      ∧ (count = none → to_string m r = .ok ((raw_buffer m v).drop pos)) := by
  obtain ⟨r, hsub, hptr, _, hstr⟩ := substr_accept_all_ok hall hz hlen hpos count hcount
  refine ⟨r, hsub, hptr, ?_, ?_⟩
  · intro c hc
    subst hc
    exact hstr
  · intro hc
    subst hc
    rw [hstr]
    congr 1
    apply List.take_of_length_le
    simp [effective_end, raw_buffer]

theorem substr_accept_all_slice_witness :
    (∀ a c, york_view.predicate_ a c = true)
      ∧ strlen york_memory york_view.pointer_ = .ok york_view.length_
      ∧ york_view.length_ < 2 ^ 64 ∧ 4 ≤ york_view.length_
      ∧ (∀ c, some 4 = some c → 4 + c < 2 ^ 64)
      ∧ ∃ r, substr york_memory york_view 4 (some 4) = .ok r
        ∧ r.pointer_ = york_view.pointer_
        ∧ (∀ c, some 4 = some c → to_string york_memory r
            = .ok (((raw_buffer york_memory york_view).drop 4).take
                (min (4 + c) york_view.length_ - 4)))
        ∧ (some 4 = none →
            to_string york_memory r = .ok ((raw_buffer york_memory york_view).drop 4)) :=
  ⟨fun _ _ => rfl, by decide, by decide, by decide,
    fun c hc => by cases hc; decide,
    substr_accept_all_slice york_memory york_view 4 (some 4) (fun _ _ => rfl) (by decide)
      (by decide) (by decide) (fun c hc => by cases hc; decide)⟩

/-- C14: for every view that accepts every character, over a non-empty buffer `s` of
`std::size_t` length that holds no `NUL` and is followed by one, and every token over a
readable buffer whose filtered sequence `t` is non-empty, `split` returns `k + 1` views,
`k` being the number of left-to-right non-overlapping occurrences of `t` in `s`; their string
conversions are, in order, the gaps before, between and after those occurrences (an empty
gap for a leading, trailing or repeated occurrence), and the gaps joined by `t` give `s`. -/
theorem split_accept_all_gaps (m : Mem) (v tok : filtered_string_view)
    (hall : ∀ a c, v.predicate_ a c = true) (hz : strlen m v.pointer_ = .ok v.length_)
    (hlen : v.length_ < 2 ^ 64) (hne : 0 < v.length_) (ht : readable m tok)
    (htne : filtered_sequence m tok ≠ []) :
    ∃ parts, split m v tok = .ok parts
      ∧ parts.length = occurrences (filtered_sequence m tok) (raw_buffer m v) + 1
      ∧ List.Forall₂ (fun part seg => to_string m part = .ok seg) parts
          (gaps (filtered_sequence m tok) (raw_buffer m v))
      ∧ List.intercalate (filtered_sequence m tok)
          (gaps (filtered_sequence m tok) (raw_buffer m v)) = raw_buffer m v := by
  obtain ⟨parts, hsplit, hf⟩ := split_accept_all_ok hall hz hlen hne ht htne
  refine ⟨parts, hsplit, ?_, hf, ?_⟩
  · rw [hf.length_eq]
    exact length_gaps_aux _ _ 0 []
  · have := intercalate_gaps_aux htne (raw_buffer m v).length (raw_buffer m v) []
      (Nat.le_refl _)
    simpa [gaps] using this

theorem split_accept_all_gaps_witness :
    (∀ a c, xax_view.predicate_ a c = true)
      ∧ strlen xax_memory xax_view.pointer_ = .ok xax_view.length_
      ∧ xax_view.length_ < 2 ^ 64 ∧ 0 < xax_view.length_ ∧ readable xax_memory x_view
      ∧ filtered_sequence xax_memory x_view ≠ []
      ∧ ∃ parts, split xax_memory xax_view x_view = .ok parts
        ∧ parts.length
            = occurrences (filtered_sequence xax_memory x_view)
                (raw_buffer xax_memory xax_view) + 1
        ∧ List.Forall₂ (fun part seg => to_string xax_memory part = .ok seg) parts
            (gaps (filtered_sequence xax_memory x_view) (raw_buffer xax_memory xax_view))
        ∧ List.intercalate (filtered_sequence xax_memory x_view)
            (gaps (filtered_sequence xax_memory x_view) (raw_buffer xax_memory xax_view))
              = raw_buffer xax_memory xax_view :=
  ⟨fun _ _ => rfl, by decide, by decide, by decide, by decide, by decide,
    split_accept_all_gaps xax_memory xax_view x_view (fun _ _ => rfl) (by decide) (by decide)
      (by decide) (by decide) (by decide)⟩

/-- C16 (the code at a failing input): the view over `"??a,b"` without question marks
converts to `"a,b"`, the index table of `substr` for it is `[2]`, and `split` on the token
`","` ends in the `std::out_of_range` thrown by `substr(fsv, 2)`. -/
theorem split_lead_throws :
    to_string lead_memory lead_view = .ok "a,b".toList
      ∧ to_string lead_memory comma_view = .ok ",".toList
      ∧ substr_indices lead_memory lead_view = .ok [2]
      ∧ rendered_list lead_memory (split lead_memory lead_view comma_view)
          = .error (.out_of_range
              "filtered_string_view::substr(2): position out of range for filtered string of size 1") := by
  decide

/-- C17 (the code at a failing input): the view over `"a?b?c"` without question marks has
size 3, and the text thrown by `substr(v, 4)` reports a filtered string of size 2. -/
theorem substr_marks_reports_short_size :
    size marks_memory marks_view = .ok 3
      ∧ rendered marks_memory (substr marks_memory marks_view 4 none)
          = .error (.out_of_range
              "filtered_string_view::substr(4): position out of range for filtered string of size 2") := by
  decide

/-! ## The failure of `at` -/

/-- C18 (counterexample): on `"cat"` filtered to the letter `a` (size 1), `at(1)` throws a
`std::domain_error` whose text names the index only; it is no `std::out_of_range`, whatever
the text. -/
theorem at_cat_is_domain_error :
    size cat_memory cat_view = .ok 1
      ∧ at_ cat_memory cat_view 1
          = .error (.domain_error "filtered_string_view::at(1): invalid index")
      ∧ ∀ what, at_ cat_memory cat_view 1 ≠ .error (.out_of_range what) := by
  refine ⟨by decide, by decide, ?_⟩
  intro what h
  have h2 : at_ cat_memory cat_view 1
      = .error (.domain_error "filtered_string_view::at(1): invalid index") := by decide
  rw [h2] at h
  cases h

/-- C18 (amended): for every view over a readable buffer and every `n` at or above the
value of `size()`, `at(n)` throws a `std::domain_error` whose text is
`filtered_string_view::at(<n>): invalid index`, with `n` in decimal; the text depends on `n`
alone, so it carries the requested index and not the filtered size. -/
theorem at_throws_domain_error (m : Mem) (v : filtered_string_view) (n N : Nat)
    (hr : readable m v) (hN : size m v = .ok N) (hn : N ≤ n) :
    at_ m v n = .error (.domain_error
      ("filtered_string_view::at(" ++ toString n ++ "): invalid index")) := by
  rw [size_eq_length hr] at hN
  cases hN
  exact at_throws hr hn

theorem at_throws_domain_error_witness :
    readable cat_memory cat_view ∧ size cat_memory cat_view = .ok 1 ∧ 1 ≤ 7
      ∧ at_ cat_memory cat_view 7 = .error (.domain_error
          ("filtered_string_view::at(" ++ toString 7 ++ "): invalid index")) :=
  ⟨by decide, by decide, by decide,
    at_throws_domain_error cat_memory cat_view 7 1 (by decide) (by decide) (by decide)⟩

/-! ## Move assignment -/

/-- C19: for every two distinct views `a` and `b`, after `b = std::move(a)` the target holds
the former pointer, raw length and predicate of `a` (so it converts to the same string), and
`a` has a null pointer and raw length 0, so its `size()` is 0; a move assignment of a view
to itself leaves its three members unchanged. -/
theorem move_assign_transfers (m : Mem) (empty_function : filter)
    (a b : filtered_string_view) :
    (move_assign empty_function false b a).1.pointer_ = a.pointer_
      ∧ (move_assign empty_function false b a).1.length_ = a.length_
      ∧ (move_assign empty_function false b a).1.predicate_ = a.predicate_
      ∧ to_string m (move_assign empty_function false b a).1 = to_string m a
      ∧ (move_assign empty_function false b a).2.pointer_ = none
      ∧ (move_assign empty_function false b a).2.length_ = 0
      ∧ size m (move_assign empty_function false b a).2 = .ok 0
      ∧ move_assign empty_function true a a = (a, a) :=
  ⟨rfl, rfl, rfl, rfl, rfl, rfl, rfl, rfl⟩

/-! ## The sum `pos + count` -/

/-- C20 (the code at a failing input): on `"new york city"` (length 13, every character
accepted) the sum `9 + (2 ^ 64 - 1)` wraps around to 8, and `substr(v, 9, 2 ^ 64 - 1)`
converts to the empty string where `substr(v, 9)` converts to `"city"`; with `pos = 1` the
sum wraps to 0 and `substr` subscripts its index table out of bounds. -/
theorem substr_count_wraps :
    (9 + (2 ^ 64 - 1)) % 2 ^ 64 = 8
      ∧ rendered york_memory (substr york_memory york_view 9 (some (2 ^ 64 - 1))) = .ok []
      ∧ rendered york_memory (substr york_memory york_view 9 none) = .ok "city".toList
      ∧ rendered york_memory (substr york_memory york_view 1 (some (2 ^ 64 - 1)))
          = .error .undefined := by
  decide

/-! ## The shape of a sub-view -/

theorem ctor_cstr_inv {m : Mem} {p : Option Nat} {pred : filter} {r : filtered_string_view}
    (h : ctor_cstr m p pred = .ok r) :
    ∃ n, strlen m p = .ok n ∧ r = { pointer_ := p, length_ := n, predicate_ := pred } := by
  unfold ctor_cstr at h
  cases hs : strlen m p with
  | error e => rw [hs] at h; cases h
  | ok n =>
    rw [hs] at h
    cases h
    exact ⟨n, rfl, rfl⟩

theorem substr_throws {m : Mem} {v : filtered_string_view} {idx : List Nat}
    (hidx : substr_indices m v = .ok idx) {pos : Nat} (hpos : pos > idx.length)
    (count : Option Nat) :
    substr m v pos count = .error (.out_of_range (substr_what pos idx.length)) := by
  unfold substr
  rw [hidx]
  simp only [bind, Except.bind]
  rw [if_pos hpos]

theorem mem_substr_indices_lt {m : Mem} {v : filtered_string_view} {i : Nat}
    (hi : i ∈ (List.range (filtered_sequence m v).length).filter (accepted m v)) :
    i < v.length_ := by
  have h1 := List.mem_range.mp (List.mem_filter.mp hi).1
  have h2 := length_filtered_positions_le m v
  simp only [filtered_sequence, List.length_map] at h1
  omega

theorem reject_all_eq_window (data : Option Nat) (pred : filter) :
    (fun _ _ => false : filter) = substr_predicate data 0 0 pred := by
  funext a c
  unfold substr_predicate
  by_cases h : ptr_diff a data ≥ ((0 : Nat) : Int)
  · have h2 : ¬ ptr_diff a data < ((0 : Nat) : Int) := by omega
    simp [h, h2]
  · simp [h]

theorem substr_ok_shape {m : Mem} {v : filtered_string_view} (hr : readable m v)
    {pos : Nat} {count : Option Nat} {r : filtered_string_view}
    (h : substr m v pos count = .ok r) :
    ∃ n s e, strlen m v.pointer_ = .ok n ∧ s ≤ v.length_ ∧ e ≤ v.length_
      ∧ r = window_view v n s e := by
  have hidx := substr_indices_ok hr
  by_cases hpos : pos > ((List.range (filtered_sequence m v).length).filter
      (accepted m v)).length
  · rw [substr_throws hidx hpos] at h
    cases h
  · cases count with
    | none =>
      rw [substr_with_end hidx (by omega) none _ (fun c hc => by cases hc) (fun _ => rfl)] at h
      by_cases hpe : pos = ((List.range (filtered_sequence m v).length).filter
          (accepted m v)).length
      · rw [if_pos hpe] at h
        obtain ⟨n, hn, hrr⟩ := ctor_cstr_inv h
        refine ⟨n, 0, 0, hn, Nat.zero_le _, Nat.zero_le _, ?_⟩
        rw [hrr, reject_all_eq_window v.pointer_ v.predicate_]
        rfl
      · rw [if_neg hpe] at h
        revert h
        generalize hg1 : ((List.range (filtered_sequence m v).length).filter
          (accepted m v))[pos]? = o1
        generalize hg2 : ((List.range (filtered_sequence m v).length).filter (accepted m v))[
          (((List.range (filtered_sequence m v).length).filter (accepted m v)).length
            + 2 ^ 64 - 1) % 2 ^ 64]? = o2
        intro h
        cases o1 with
        | none => cases h
        | some s =>
          cases o2 with
          | none => cases h
          | some last =>
            obtain ⟨n, hn, hrr⟩ := ctor_cstr_inv h
            have hs := mem_substr_indices_lt (List.getElem?_mem hg1)
            have hl := mem_substr_indices_lt (List.getElem?_mem hg2)
            exact ⟨n, s, last + 1, hn, by omega, by omega, hrr⟩
    | some c =>
      rw [substr_with_end hidx (by omega) (some c) _ (fun c2 hc => by cases hc; rfl)
        (fun hc => by cases hc)] at h
      by_cases hpe : pos = min ((pos + c) % 2 ^ 64)
          ((List.range (filtered_sequence m v).length).filter (accepted m v)).length
      · rw [if_pos hpe] at h
        obtain ⟨n, hn, hrr⟩ := ctor_cstr_inv h
        refine ⟨n, 0, 0, hn, Nat.zero_le _, Nat.zero_le _, ?_⟩
        rw [hrr, reject_all_eq_window v.pointer_ v.predicate_]
        rfl
      · rw [if_neg hpe] at h
        revert h
        generalize hg1 : ((List.range (filtered_sequence m v).length).filter
          (accepted m v))[pos]? = o1
        generalize hg2 : ((List.range (filtered_sequence m v).length).filter (accepted m v))[
          (min ((pos + c) % 2 ^ 64)
            ((List.range (filtered_sequence m v).length).filter (accepted m v)).length
            + 2 ^ 64 - 1) % 2 ^ 64]? = o2
        intro h
        cases o1 with
        | none => cases h
        | some s =>
          cases o2 with
          | none => cases h
          | some last =>
            obtain ⟨n, hn, hrr⟩ := ctor_cstr_inv h
            have hs := mem_substr_indices_lt (List.getElem?_mem hg1)
            have hl := mem_substr_indices_lt (List.getElem?_mem hg2)
            exact ⟨n, s, last + 1, hn, by omega, by omega, hrr⟩


theorem accepted_window (m : Mem) (v : filtered_string_view) (n s e : Nat) :
    accepted m (window_view v n s e)
      = fun i => accepted m v i && (decide (s ≤ i) && decide (i < e)) := by
  funext i
  show substr_predicate v.pointer_ s e v.predicate_ (raw_address v i) (raw_char m v i) = _
  unfold substr_predicate
  rw [ptr_diff_raw_address]
  unfold accepted
  have e1 : decide ((i : Int) ≥ (s : Int)) = decide (s ≤ i) := by
    by_cases h1 : s ≤ i
    · rw [decide_eq_true h1, decide_eq_true (by omega)]
    · rw [decide_eq_false h1, decide_eq_false (by omega)]
  have e2 : decide ((i : Int) < (e : Int)) = decide (i < e) := by
    by_cases h2 : i < e
    · rw [decide_eq_true h2, decide_eq_true (by omega)]
    · rw [decide_eq_false h2, decide_eq_false (by omega)]
  rw [e1, e2, Bool.and_comm]

theorem filtered_positions_window (m : Mem) (v : filtered_string_view) (n s e : Nat) :
    filtered_positions m (window_view v n s e)
      = (List.range' s (min n e - s)).filter (accepted m v) := by
  unfold filtered_positions
  rw [accepted_window, ← List.filter_filter, List.range_eq_range', filter_interval]
  have h1 : max 0 s = s := by omega
  have h2 : min (0 + (window_view v n s e).length_) e = min n e := by
    show min (0 + n) e = min n e
    omega
  rw [h1, h2]

theorem range_three (s k L : Nat) (h : s + k ≤ L) :
    List.range L = List.range' 0 s ++ (List.range' s k ++ List.range' (s + k) (L - (s + k))) := by
  rw [List.range'_append_1, List.range_eq_range']
  have h1 := List.range'_append_1 0 s (L - (s + k) + k)
  rw [Nat.zero_add] at h1
  rw [h1]
  congr 1
  omega

theorem filtered_positions_block (m : Mem) (v : filtered_string_view) {n s e : Nat}
    (hs : s ≤ v.length_) (he : e ≤ v.length_) :
    filtered_positions m v
      = (List.range' 0 s).filter (accepted m v)
        ++ filtered_positions m (window_view v n s e)
        ++ (List.range' (s + (min n e - s)) (v.length_ - (s + (min n e - s)))).filter
              (accepted m v) := by
  rw [filtered_positions_window]
  unfold filtered_positions
  rw [range_three s (min n e - s) v.length_ (by omega), List.filter_append, List.filter_append,
    List.append_assoc]


/-- C21: for every view over a readable buffer, every `pos` and every count for which
`substr` returns a view: the result has the pointer of `v`, its predicate holds only where
that of `v` holds, every raw position it accepts is accepted by `v`, and its accepted raw
positions are a contiguous block of those of `v` (a prefix and a suffix removed), so its
string conversion is that of `v` with a prefix and a suffix removed. -/
theorem substr_contiguous_block (m : Mem) (v : filtered_string_view) (pos : Nat)
    (count : Option Nat) (r : filtered_string_view) (hr : readable m v)
    (h : substr m v pos count = .ok r) :
    r.pointer_ = v.pointer_
      ∧ (∀ a c, r.predicate_ a c = true → v.predicate_ a c = true)
      ∧ (∀ i, i ∈ filtered_positions m r → i ∈ filtered_positions m v)
      ∧ (∃ pre suf, filtered_positions m v = pre ++ filtered_positions m r ++ suf)
      ∧ ∃ s pre suf, to_string m r = .ok s ∧ to_string m v = .ok (pre ++ s ++ suf) := by
  obtain ⟨n, s, e, hn, hs, he, hrr⟩ := substr_ok_shape hr h
  subst hrr
  have hblock := filtered_positions_block m v (n := n) hs he
  have hrw : readable m (window_view v n s e) :=
    readable_of_strlen (v := window_view v n s e) hn
  refine ⟨rfl, ?_, ?_, ⟨_, _, hblock⟩, ?_⟩
  · intro a c hac
    have h2 : (decide (ptr_diff a v.pointer_ ≥ (s : Int))
        && decide (ptr_diff a v.pointer_ < (e : Int)) && v.predicate_ a c) = true := hac
    rw [Bool.and_eq_true] at h2
    exact h2.2
  · intro i hi
    rw [hblock]
    exact List.mem_append_left _ (List.mem_append_right _ hi)
  · refine ⟨filtered_sequence m (window_view v n s e),
      ((List.range' 0 s).filter (accepted m v)).map (raw_char m v),
      ((List.range' (s + (min n e - s)) (v.length_ - (s + (min n e - s)))).filter
        (accepted m v)).map (raw_char m v), to_string_ok hrw, ?_⟩
    rw [to_string_ok hr]
    unfold filtered_sequence
    rw [hblock, List.map_append, List.map_append]
    rfl

theorem substr_contiguous_block_witness :
    readable marks_memory marks_view
      ∧ substr marks_memory marks_view 1 (some 1) = .ok (window_view marks_view 5 2 3)
      ∧ ((window_view marks_view 5 2 3).pointer_ = marks_view.pointer_
        ∧ (∀ a c, (window_view marks_view 5 2 3).predicate_ a c = true
            → marks_view.predicate_ a c = true)
        ∧ (∀ i, i ∈ filtered_positions marks_memory (window_view marks_view 5 2 3)
            → i ∈ filtered_positions marks_memory marks_view)
        ∧ (∃ pre suf, filtered_positions marks_memory marks_view
            = pre ++ filtered_positions marks_memory (window_view marks_view 5 2 3) ++ suf)
        ∧ ∃ s pre suf, to_string marks_memory (window_view marks_view 5 2 3) = .ok s
            ∧ to_string marks_memory marks_view = .ok (pre ++ s ++ suf)) :=
  ⟨by decide, rfl,
    substr_contiguous_block marks_memory marks_view 1 (some 1) (window_view marks_view 5 2 3)
      (by decide) rfl⟩

/-! ## Sub-views of sub-views, and strings with an embedded `NUL` -/

/-- C22 (the code at a failing input): on `"new york city"` (length 13, every character
accepted) `substr(v, 9)` converts to `"city"` and has size 4, and `substr(v, 10)` converts
to `"ity"`; yet `substr(substr(v, 9), 1)` throws `std::out_of_range`, its index table being
empty, and `substr(substr(v, 2), 1)` converts to `" york ci"` where `substr(v, 3)` converts
to `" york city"`. -/
theorem substr_of_substr_throws :
    rendered york_memory (substr york_memory york_view 9 none) = .ok "city".toList
      ∧ (substr york_memory york_view 9 none >>= size york_memory) = .ok 4
      ∧ (substr york_memory york_view 9 none >>= substr_indices york_memory) = .ok []
      ∧ rendered york_memory (substr york_memory york_view 10 none) = .ok "ity".toList
      ∧ rendered york_memory
            (substr york_memory york_view 9 none >>= fun w => substr york_memory w 1 none)
          = .error (.out_of_range
              "filtered_string_view::substr(1): position out of range for filtered string of size 0")
      ∧ rendered york_memory
            (substr york_memory york_view 2 none >>= fun w => substr york_memory w 1 none)
          = .ok " york ci".toList
      ∧ rendered york_memory (substr york_memory york_view 3 none)
          = .ok " york city".toList := by
  decide

/-- C23 (the code at a failing input): the view the `std::string` constructor builds over
the five characters `a`, `b`, `NUL`, `c`, `d` has size 5 and converts to those five
characters; yet `compose(v, {})` has raw length 2 and size 2, and `substr(v, 0)` has raw
length 2 and converts to `"ab"`. -/
theorem derived_views_stop_at_nul :
    nul_memory = ['a', 'b', NUL, 'c', 'd', NUL]
      ∧ size nul_memory nul_view = .ok 5
      ∧ to_string nul_memory nul_view = .ok ['a', 'b', NUL, 'c', 'd']
      ∧ (compose nul_memory nul_view []).map (fun r => r.length_) = .ok 2
      ∧ (compose nul_memory nul_view [] >>= size nul_memory) = .ok 2
      ∧ (substr nul_memory nul_view 0 none).map (fun r => r.length_) = .ok 2
      ∧ rendered nul_memory (substr nul_memory nul_view 0 none) = .ok "ab".toList := by
  decide

end fsv
